import Mathlib

/-!
# wsh: a shallow embedding of the command execution engine

The development follows `wsh.c` and `dynamic_array.c`.

* C strings are lists of characters (`Str`); a `char *` that may be `NULL`
  is an `Option Str`.
* The globals `rc`, `alias_hm`, `history` and the environment variables
  `PATH` and `HOME` are the fields of `Shell`; everything the process does to
  the outside world (messages, `fork`, `pipe`, `waitpid`, ...) is appended to
  `Shell.trace`.
* What the operating system answers (`access`, `chdir`, `pipe`, `fork`,
  `waitpid`) is read from an `OS` record.
* `MAX_ARGS` and `MAX_LINE` are defined in `wsh.h`; they are parameters here
  (fields of `OS`).
* A loop whose C counterpart walks a pointer through a buffer is a function
  with a fuel argument; the functions that call it pass more fuel than the
  buffer is long, and `*_fuel` lemmas show that this fuel is never used up.
-/

namespace Wsh

/-! ## Strings -/

abbrev Str := List Char

/-- The single-quote character. -/
def SQUOTE : Char := Char.ofNat 39

/-- The space character. -/
def SPACE : Char := Char.ofNat 32

/-- The newline character. -/
def NEWLINE : Char := Char.ofNat 10

/-- C `isspace` in the "C" locale: space, `\t`, `\n`, `\v`, `\f`, `\r`. -/
def isspace (c : Char) : Bool :=
  c.toNat = 32 || (9 ≤ c.toNat && c.toNat ≤ 13)

/-- C `strchr(p, c)` for `c ≠ 0`, followed by the `*token = 0; p = token + 1`
that both branches of the tokenizer perform: the text before the first `c`
and the text after it, or `none` when `c` does not occur. -/
def strchr_cut (c : Char) : Str → Option (Str × Str)
  | [] => none
  | x :: xs =>
    if x = c then some ([], xs)
    else match strchr_cut c xs with
      | none => none
      | some (tok, rest) => some (x :: tok, rest)

/-- The loop `while (*p && *p == ' ') p++;`. -/
def skip_spaces : Str → Str
  | [] => []
  | c :: cs => if c = SPACE then skip_spaces cs else c :: cs

/-- The loop `while (*trimmed && isspace(*trimmed)) trimmed++;`. -/
def skip_isspace : Str → Str
  | [] => []
  | c :: cs => if isspace c then skip_isspace cs else c :: cs

/-- The helper `append` of `utils.h`, whose code is not part of the sources:
Modelled from the spec: "appended to the value separated by spaces", that is
string concatenation (the callers pass the separator themselves). -/
def append (a b : Str) : Str := a ++ b

/-- One call of `strtok_r` with a one-character delimiter set: skip the
leading delimiters; no token if the string ends there; otherwise the token
runs up to the next delimiter, and the saved pointer is what follows that
delimiter. -/
def strtok_r (delim : Char) (s : Str) : Option (Str × Str) :=
  let s1 := s.dropWhile (fun c => c == delim)
  if s1 = [] then none
  else some (s1.takeWhile (fun c => c != delim),
             (s1.dropWhile (fun c => c != delim)).drop 1)

/-! ## Events, messages, state -/

/-- The message macros of `wsh.h` that `wsh_warn` is called with. -/
inductive Msg
  | INVALID_WSH_USE
  | EMPTY_PIPE_SEGMENT
  | INVALID_EXIT_USE
  | CMD_NOT_FOUND (cmd : Str)
  | EMPTY_PATH
  | MISSING_CLOSING_QUOTE
  | INVALID_CD_USE
  | CD_NO_HOME
  | INVALID_PATH_USE
  | INVALID_ALIAS_USE
  | INVALID_UNALIAS_USE
  | INVALID_WHICH_USE
  | INVALID_HISTORY_USE
  | HISTORY_INVALID_ARG
  deriving DecidableEq, Repr

def EXIT_SUCCESS : Nat := 0

def EXIT_FAILURE : Nat := 1

/-- The key/value store of `hash_map.h`, whose code is not part of the
sources. Modelled from the spec: a key/value string store with
`get(key) -> value or absent`, `put(key, value)`, `delete(key)`; keys are
unique and the last `put` wins. -/
abbrev HashMap := List (Str × Str)

/-- Modelled from the spec: `get(key) -> value or absent`. -/
def hm_get (hm : HashMap) (key : Str) : Option Str :=
  match hm with
  | [] => none
  | (k, v) :: rest => if k = key then some v else hm_get rest key

/-- Modelled from the spec: `delete(key)`, a no-op when the key is absent. -/
def hm_delete (hm : HashMap) (key : Str) : HashMap :=
  hm.filter (fun kv => kv.1 != key)

/-- Modelled from the spec: `put(key, value)`; keys unique, last put wins. -/
def hm_put (hm : HashMap) (key value : Str) : HashMap :=
  (key, value) :: hm_delete hm key

/-- The `DynamicArray` of `dynamic_array.h`: `capacity` cells, of which the
first `size` hold strings (a cell that was never written is `none`). -/
structure DynamicArray where
  data : List (Option Str)
  size : Nat
  capacity : Nat
  deriving DecidableEq, Repr

/-- `da_create`: `capacity` uninitialised cells, size 0 (allocation is assumed
to succeed; on failure the process exits). -/
def da_create (init_capacity : Nat) : DynamicArray :=
  { data := List.replicate init_capacity none, size := 0, capacity := init_capacity }

/-- `da_put` with a non-null array and value: double the capacity (or make it
1) when the array is full, `realloc` keeping the old cells, then store a copy
of `val` in cell `size` and increment `size`. -/
def da_put (da : DynamicArray) (val : Str) : DynamicArray :=
  let da1 : DynamicArray :=
    if da.size ≥ da.capacity then
      let new_capacity := if da.capacity = 0 then 1 else da.capacity * 2
      { da with data := da.data ++ List.replicate (new_capacity - da.capacity) none,
                capacity := new_capacity }
    else da
  { da1 with data := da1.data.set da1.size (some val), size := da1.size + 1 }

/-- `da_get`: `NULL` when `ind >= size`, the cell otherwise. -/
def da_get (da : DynamicArray) (ind : Nat) : Option Str :=
  if ind ≥ da.size then none else (da.data.get? ind).join

/-- What `waitpid` stored in `status`, as seen through `WIFEXITED` and
`WEXITSTATUS`: the child exited with a code, or `WIFEXITED(status)` is
false (killed by a signal, or `waitpid` failed and left `status` as it
was). -/
inductive WaitStatus
  | exited (code : Nat)
  | not_exited
  deriving DecidableEq, Repr

/-- Side effects, in the order the process performs them. -/
inductive Event
  | warn (m : Msg)
  | perror (what : Str)
  | print (line : Option Str)
  | hm_print_sorted (hm : HashMap)
  | which_alias (cmd val : Str)
  | which_builtin (cmd : Str)
  | which_external (cmd path : Str)
  | which_not_found (cmd : Str)
  | chdir (dir : Str) (ok : Bool)
  | pipe (stage : Nat) (ok : Bool)
  | fork (stage : Nat) (segment : Str) (pid : Int)
  | waitpid (pid : Int)
  | exit (code : Nat)
  deriving DecidableEq, Repr

/-- The answers of the operating system, and the two constants of `wsh.h`.
`fork i` is what the `fork()` of stage `i` returns in the process that is
being followed: `-1` on failure, the child's pid in the parent, `0` in the
child. `garbage_pid i` is the indeterminate content of
`pids[i]` when it is read without having been written. -/
structure OS where
  MAX_ARGS : Nat
  MAX_LINE : Nat
  access_x : Str → Bool
  chdir_ok : Str → Bool
  execv_ok : Str → Bool
  pipe_ok : Nat → Bool
  fork : Nat → Int
  garbage_pid : Nat → Int
  waitpid : Int → WaitStatus

/-- The globals of `wsh.c` and the two environment variables it uses. -/
structure Shell where
  rc : Nat
  alias_hm : HashMap
  history : DynamicArray
  PATH : Option Str
  HOME : Option Str
  trace : List Event

/-- `wsh_warn`: print the message to stderr and set `rc = EXIT_FAILURE`. -/
def wsh_warn (m : Msg) (st : Shell) : Shell :=
  { st with rc := EXIT_FAILURE, trace := st.trace ++ [Event.warn m] }

/-- Record an event that does not touch the globals. -/
def emit (e : Event) (st : Shell) : Shell :=
  { st with trace := st.trace ++ [e] }

/-! ## Tokenizer: `parseline_no_subst` -/

/-- How the `while (*p)` loop of `parseline_no_subst` ends. -/
inductive LoopResult
  | done (argv : List Str)
  | missing_quote
  | out_of_fuel
  deriving DecidableEq, Repr

/-- The `while (*p)` loop of `parseline_no_subst`; `argv` holds the `count`
arguments stored so far. -/
def parse_loop (MAX_ARGS : Nat) : Nat → Str → List Str → LoopResult
  | 0, _, _ => LoopResult.out_of_fuel
  | fuel + 1, p, argv =>
    match p with
    | [] => LoopResult.done argv
    | c :: p1 =>
      let store (tok : Str) : List Str :=
        if argv.length < MAX_ARGS - 1 then argv ++ [tok] else argv
      if c = SQUOTE then
        match strchr_cut SQUOTE p1 with
        | none => LoopResult.missing_quote
        | some (tok, rest) => parse_loop MAX_ARGS fuel (skip_spaces rest) (store tok)
      else
        match strchr_cut SPACE (c :: p1) with
        | none => LoopResult.done argv
        | some (tok, rest) => parse_loop MAX_ARGS fuel (skip_spaces rest) (store tok)

/-- The buffer the tokenizer works on: a trailing newline is replaced by a
space, otherwise a space is appended. -/
def parse_buf (cmdline : Str) : Str :=
  if cmdline.getLast? = some NEWLINE then cmdline.dropLast ++ [SPACE]
  else cmdline ++ [SPACE]

/-- What `parseline_no_subst` leaves in `*argc` and in `argv[0..argc]`. -/
structure Parsed where
  argc : Nat
  argv : List (Option Str)
  deriving DecidableEq, Repr

/-- `parseline_no_subst` for a non-null `cmdline` (no caller passes `NULL`):
the state after the call, and `argc`/`argv`. -/
def parseline_no_subst (MAX_ARGS : Nat) (st : Shell) (cmdline : Str) : Shell × Parsed :=
  let buf := parse_buf cmdline
  match parse_loop MAX_ARGS (buf.length + 1) (skip_spaces buf) [] with
  | LoopResult.done argv => (st, { argc := argv.length, argv := argv.map some ++ [none] })
  | LoopResult.missing_quote =>
    (wsh_warn Msg.MISSING_CLOSING_QUOTE st, { argc := 0, argv := [none] })
  | LoopResult.out_of_fuel => (st, { argc := 0, argv := [none] })

/-- The strings `argv[0] .. argv[argc-1]`. -/
def Parsed.args (p : Parsed) : List Str :=
  (p.argv.take p.argc).filterMap id

/-! ## Executable resolver: `find_executable` -/

/-- The `while (dir)` loop of `find_executable` over the `strtok_r` tokens of
the copy of `PATH`; the outer `none` means that the fuel ran out.
`snprintf(full_path, MAX_LINE, "%s/%s", dir, cmd)` keeps at most
`MAX_LINE - 1` characters. -/
def find_loop (os : OS) (cmd : Str) : Nat → Str → Option (Option Str)
  | 0, _ => none
  | fuel + 1, s =>
    match strtok_r ':' s with
    | none => some none
    | some (dir, rest) =>
      if dir.length > 0 then
        let full_path := (dir ++ '/' :: cmd).take (os.MAX_LINE - 1)
        if os.access_x full_path then some (some full_path)
        else find_loop os cmd fuel rest
      else find_loop os cmd fuel rest

/-- `find_executable` for a non-null `cmd`. -/
def find_executable (os : OS) (st : Shell) (cmd : Str) : Option Str :=
  if cmd.length = 0 then none
  else if '/' ∈ cmd then
    if os.access_x cmd then some cmd else none
  else
    match st.PATH with
    | none => none
    | some path_env =>
      if path_env.length = 0 then none
      else (find_loop os cmd (path_env.length + 1) path_env).join

/-! ## Builtin dispatcher: `handle_builtin` -/

/-- The array `builtins[]` that `execute_line` and the `which` builtin both
declare. -/
def builtins : List Str :=
  ["exit".toList, "cd".toList, "path".toList, "alias".toList, "unalias".toList,
   "which".toList, "history".toList]

/-- The loop `for (j = 0; builtins[j]; j++) if (strcmp(cmd, builtins[j]) == 0)`. -/
def is_builtin_name (cmd : Str) : Bool :=
  builtins.any (fun b => cmd == b)

def LONG_MAX : Int := 2 ^ 63 - 1

def LONG_MIN : Int := -(2 ^ 63)

/-- A decimal digit. -/
def is_digit (c : Char) : Bool := 48 ≤ c.toNat && c.toNat ≤ 57

/-- The digit loop of `strtol`: the value of the longest run of digits and
what follows it. -/
def strtol_digits : Str → Nat → Nat × Str
  | [], acc => (acc, [])
  | c :: cs, acc =>
    if is_digit c then strtol_digits cs (acc * 10 + (c.toNat - 48)) else (acc, c :: cs)

/-- C `strtol(nptr, &endptr, 10)`: leading `isspace` characters, an optional
sign, then digits; the value is clamped to the range of `long`; with no digit
at all the value is 0 and `endptr = nptr`. Returns the value and `endptr`. -/
def strtol (nptr : Str) : Int × Str :=
  let s := skip_isspace nptr
  let neg : Bool := s.head? = some '-'
  let s1 := if s.head? = some '-' ∨ s.head? = some '+' then s.drop 1 else s
  match s1 with
  | [] => (0, nptr)
  | c :: _ =>
    if is_digit c then
      let r := strtol_digits s1 0
      let v : Int := if neg then -(r.1 : Int) else (r.1 : Int)
      (max LONG_MIN (min LONG_MAX v), r.2)
    else (0, nptr)

/-- How a call of `handle_builtin` ends: it returns 1 or 0, or the process
is gone (`exit(rc)`). -/
inductive Handled
  | returned (handled : Bool)
  | exited (code : Nat)
  deriving DecidableEq, Repr

/-- The loop `for (i = 4; i < argc; i++)` of the `alias` builtin, over
`argv[4..argc-1]`: the value grows by a space and the word, and every round
calls `wsh_warn(INVALID_ALIAS_USE)`. -/
def alias_extra : List Str → Str × Shell → Str × Shell
  | [], acc => acc
  | w :: ws, (value, st) =>
    alias_extra ws (append (append value [SPACE]) w, wsh_warn Msg.INVALID_ALIAS_USE st)

/-- The loop `for (i = 0; i < history->size; i++) printf("%s\n", da_get(history, i))`. -/
def history_print_all (st : Shell) : Shell :=
  (List.range st.history.size).foldl
    (fun s i => emit (Event.print (da_get s.history i)) s) st

/-- `handle_builtin(argc, argv)` with `argc = argv.length ≥ 1`. -/
def handle_builtin (os : OS) (st : Shell) (argv : List Str) : Shell × Handled :=
  let argc := argv.length
  let argv0 := argv.getD 0 []
  if argv0 = "cd".toList then
    if argc > 2 then (wsh_warn Msg.INVALID_CD_USE st, Handled.returned true)
    else
      let dir : Option Str := if argc = 1 then st.HOME else some (argv.getD 1 [])
      match dir with
      | none => (wsh_warn Msg.CD_NO_HOME st, Handled.returned true)
      | some d =>
        if os.chdir_ok d then
          ({ emit (Event.chdir d true) st with rc := EXIT_SUCCESS }, Handled.returned true)
        else
          ({ emit (Event.perror "cd".toList) (emit (Event.chdir d false) st) with
               rc := EXIT_FAILURE }, Handled.returned true)
  else if argv0 = "path".toList then
    if argc > 2 then (wsh_warn Msg.INVALID_PATH_USE st, Handled.returned true)
    else if argc = 1 then
      let st1 := match st.PATH with
        | some path => emit (Event.print (some path)) st
        | none => st
      ({ st1 with rc := EXIT_SUCCESS }, Handled.returned true)
    else
      ({ st with PATH := some (argv.getD 1 []), rc := EXIT_SUCCESS }, Handled.returned true)
  else if argv0 = "alias".toList then
    if argc = 1 then
      ({ emit (Event.hm_print_sorted st.alias_hm) st with rc := EXIT_SUCCESS },
       Handled.returned true)
    else if argc ≥ 3 ∧ argv.getD 2 [] = "=".toList then
      let value0 : Str := if argc > 3 then argv.getD 3 [] else []
      let r := alias_extra (argv.drop 4) (value0, st)
      ({ r.2 with alias_hm := hm_put r.2.alias_hm (argv.getD 1 []) r.1, rc := EXIT_SUCCESS },
       Handled.returned true)
    else (wsh_warn Msg.INVALID_ALIAS_USE st, Handled.returned true)
  else if argv0 = "unalias".toList then
    if argc ≠ 2 then (wsh_warn Msg.INVALID_UNALIAS_USE st, Handled.returned true)
    else
      ({ st with alias_hm := hm_delete st.alias_hm (argv.getD 1 []), rc := EXIT_SUCCESS },
       Handled.returned true)
  else if argv0 = "which".toList then
    if argc ≠ 2 then (wsh_warn Msg.INVALID_WHICH_USE st, Handled.returned true)
    else
      let cmd := argv.getD 1 []
      match hm_get st.alias_hm cmd with
      | some alias_val =>
        ({ emit (Event.which_alias cmd alias_val) st with rc := EXIT_SUCCESS },
         Handled.returned true)
      | none =>
        if is_builtin_name cmd then
          ({ emit (Event.which_builtin cmd) st with rc := EXIT_SUCCESS },
           Handled.returned true)
        else
          match find_executable os st cmd with
          | some exec_path =>
            ({ emit (Event.which_external cmd exec_path) st with rc := EXIT_SUCCESS },
             Handled.returned true)
          | none =>
            ({ emit (Event.which_not_found cmd) st with rc := EXIT_SUCCESS },
             Handled.returned true)
  else if argv0 = "history".toList then
    if argc > 2 then (wsh_warn Msg.INVALID_HISTORY_USE st, Handled.returned true)
    else if argc = 1 then
      ({ history_print_all st with rc := EXIT_SUCCESS }, Handled.returned true)
    else
      let r := strtol (argv.getD 1 [])
      if r.2 ≠ [] ∨ r.1 ≤ 0 ∨ r.1 > (st.history.size : Int) then
        (wsh_warn Msg.HISTORY_INVALID_ARG st, Handled.returned true)
      else
        ({ emit (Event.print (da_get st.history (r.1 - 1).toNat)) st with
             rc := EXIT_SUCCESS }, Handled.returned true)
  else if argv0 = "exit".toList then
    (emit (Event.exit st.rc) st, Handled.exited st.rc)
  else (st, Handled.returned false)

/-! ## Single-command execution: `execute_single_command` -/

/-- How the process that is being followed leaves a function that may end
it: the function returns, or the process exits with a code, or its image is
replaced by `execv(path, argv)`. -/
inductive LineEnd
  | returned
  | exited (code : Nat)
  | execv (path : Str) (argv : List Str)
  deriving DecidableEq, Repr

/-- Lines 160-176 of `execute_single_command`: `first_word` is the text
before the first space (`strchr(first_word, ' ')`), and `final_cmd` is the
alias value, followed by a space and the text after that first space when
there is a space, or the command unchanged when `first_word` has no alias. -/
def final_cmd (alias_hm : HashMap) (command_str : Str) : Str :=
  let space_ptr := strchr_cut SPACE command_str
  let first_word := match space_ptr with
    | some (w, _) => w
    | none => command_str
  match hm_get alias_hm first_word with
  | some alias_val =>
    match space_ptr with
    | some (_, tail) => append (append alias_val [SPACE]) tail
    | none => alias_val
  | none => command_str

/-- `execute_single_command`, which never returns (the descriptor of the
batch file is not modelled). -/
def execute_single_command (os : OS) (st : Shell) (command_str : Str) : Shell × LineEnd :=
  let st1 : Shell := { st with rc := EXIT_SUCCESS }
  let r := parseline_no_subst os.MAX_ARGS st1 (final_cmd st1.alias_hm command_str)
  let st2 := r.1
  if r.2.argc = 0 then (emit (Event.exit EXIT_SUCCESS) st2, LineEnd.exited EXIT_SUCCESS)
  else
    let argv := r.2.args
    match handle_builtin os st2 argv with
    | (st3, Handled.exited code) => (st3, LineEnd.exited code)
    | (st3, Handled.returned true) => (emit (Event.exit st3.rc) st3, LineEnd.exited st3.rc)
    | (st3, Handled.returned false) =>
      match find_executable os st3 (argv.getD 0 []) with
      | none =>
        let path_empty : Bool := match st3.PATH with
          | none => true
          | some path_env => path_env.length = 0
        let st4 := if path_empty then wsh_warn Msg.EMPTY_PATH st3
                   else wsh_warn (Msg.CMD_NOT_FOUND (argv.getD 0 [])) st3
        (emit (Event.exit EXIT_FAILURE) st4, LineEnd.exited EXIT_FAILURE)
      | some exec_path =>
        if os.execv_ok exec_path then (st3, LineEnd.execv exec_path argv)
        else
          (emit (Event.exit EXIT_FAILURE) (emit (Event.perror "execv".toList) st3),
           LineEnd.exited EXIT_FAILURE)

/-! ## Pipeline executor: `execute_line` -/

/-- Lines 217-221: the `strtok_r(…, "|", …)` loop that fills `pipe_segments`,
bounded by `num_segments < MAX_ARGS`. -/
def split_pipe : Nat → Str → List Str
  | 0, _ => []
  | n + 1, s =>
    match strtok_r '|' s with
    | none => []
    | some (token, rest) => token :: split_pipe n rest

/-- Lines 227-235: some segment is empty once its leading `isspace`
characters are skipped. -/
def has_empty_segment (pipe_segments : List Str) : Bool :=
  pipe_segments.any (fun seg => skip_isspace seg = [])

/-- Lines 238-267, the single-command path. -/
def run_single (os : OS) (st : Shell) (seg : Str) : Shell × LineEnd :=
  let r := parseline_no_subst os.MAX_ARGS st seg
  let st1 := r.1
  if r.2.argc > 0 then
    let argv := r.2.args
    if argv.getD 0 [] = "exit".toList then
      if r.2.argc > 1 then (wsh_warn Msg.INVALID_EXIT_USE st1, LineEnd.returned)
      else (emit (Event.exit st1.rc) st1, LineEnd.exited st1.rc)
    else
      match handle_builtin os st1 argv with
      | (st2, Handled.exited code) => (st2, LineEnd.exited code)
      | (st2, Handled.returned true) => (st2, LineEnd.returned)
      | (st2, Handled.returned false) =>
        let pid := os.fork 0
        let st3 := emit (Event.fork 0 seg pid) st2
        if pid = -1 then (emit (Event.perror "fork".toList) st3, LineEnd.returned)
        else if pid = 0 then execute_single_command os st3 seg
        else
          let st4 := emit (Event.waitpid pid) st3
          match os.waitpid pid with
          | WaitStatus.exited code => ({ st4 with rc := code }, LineEnd.returned)
          | WaitStatus.not_exited => (st4, LineEnd.returned)
  else (st1, LineEnd.returned)

/-- One round of the pre-validation loop, lines 271-294; the Boolean is
`validation_passed`. -/
def validate_segment (os : OS) (acc : Shell × Bool) (seg : Str) : Shell × Bool :=
  let r := parseline_no_subst os.MAX_ARGS acc.1 seg
  let st1 := r.1
  if r.2.argc > 0 then
    let argv0 := r.2.args.getD 0 []
    if is_builtin_name argv0 then (st1, acc.2)
    else
      match find_executable os st1 argv0 with
      | none => (wsh_warn (Msg.CMD_NOT_FOUND argv0) st1, false)
      | some _ => (st1, acc.2)
  else (st1, acc.2)

/-- Lines 270-294: pre-validation of all the segments. -/
def validate (os : OS) (st : Shell) (pipe_segments : List Str) : Shell × Bool :=
  pipe_segments.foldl (validate_segment os) (st, true)

/-- How the spawn loop is left: towards the wait loop (all stages done, or
`break` after a failed `fork`), by the `return` after a failed `pipe`, or
because the process followed is a child, which ends in
`execute_single_command`. -/
inductive SpawnEnd
  | to_wait
  | returned
  | child (e : LineEnd)
  deriving DecidableEq, Repr

/-- Lines 306-320, the spawn loop from stage `i` on, over the segments that
are left; `pids` holds `pids[0..i-1]`. The descriptors themselves are not
modelled. -/
def spawn_loop (os : OS) (num_segments : Nat) :
    List Str → Nat → Shell → List Int → Shell × List Int × SpawnEnd
  | [], _, st, pids => (st, pids, SpawnEnd.to_wait)
  | seg :: segs, i, st, pids =>
    if i < num_segments - 1 ∧ os.pipe_ok i = false then
      (emit (Event.perror "pipe".toList) (emit (Event.pipe i false) st), pids,
       SpawnEnd.returned)
    else
      let st1 := if i < num_segments - 1 then emit (Event.pipe i true) st else st
      let pid := os.fork i
      let st2 := emit (Event.fork i seg pid) st1
      if pid = -1 then
        (emit (Event.perror "fork".toList) st2, pids ++ [pid], SpawnEnd.to_wait)
      else if pid = 0 then
        let r := execute_single_command os st2 seg
        (r.1, pids ++ [pid], SpawnEnd.child r.2)
      else spawn_loop os num_segments segs (i + 1) st2 (pids ++ [pid])

/-- One round of the wait loop, lines 324-330; a cell of `pids` that the
spawn loop did not write holds `garbage_pid i`. -/
def wait_step (os : OS) (pids : List Int) (st : Shell) (i : Nat) : Shell :=
  let pid := (pids.get? i).getD (os.garbage_pid i)
  let st1 := emit (Event.waitpid pid) st
  match os.waitpid pid with
  | WaitStatus.exited code => { st1 with rc := code }
  | WaitStatus.not_exited => st1

/-- Lines 324-330: the wait loop over `i = 0 .. num_segments - 1`. -/
def wait_loop (os : OS) (num_segments : Nat) (pids : List Int) (st : Shell) : Shell :=
  (List.range num_segments).foldl (wait_step os pids) st

/-- Lines 269-331, the pipeline path. -/
def run_pipeline (os : OS) (st : Shell) (pipe_segments : List Str) : Shell × LineEnd :=
  let v := validate os st pipe_segments
  if v.2 = false then ({ v.1 with rc := EXIT_FAILURE }, LineEnd.returned)
  else
    let num_segments := pipe_segments.length
    match spawn_loop os num_segments pipe_segments 0 v.1 [] with
    | (st1, _, SpawnEnd.returned) => (st1, LineEnd.returned)
    | (st1, _, SpawnEnd.child e) => (st1, e)
    | (st1, pids, SpawnEnd.to_wait) => (wait_loop os num_segments pids st1, LineEnd.returned)

/-- `execute_line` (the copy of the line is assumed to be allocated). -/
def execute_line (os : OS) (st : Shell) (line : Str) : Shell × LineEnd :=
  let pipe_segments := split_pipe os.MAX_ARGS line
  let num_segments := pipe_segments.length
  if num_segments = 0 then (st, LineEnd.returned)
  else if has_empty_segment pipe_segments then
    (wsh_warn Msg.EMPTY_PIPE_SEGMENT st, LineEnd.returned)
  else if num_segments = 1 then run_single os st (pipe_segments.getD 0 [])
  else run_pipeline os st pipe_segments

/-! ## Vocabulary of the statements about the tokenizer -/

/-- A stretch of text that the tokenizer consumes in one round of its loop:
an unquoted token with the spaces after it (at least one, `gap + 1`), or a
quoted span with the spaces after it (`gap`, possibly none). -/
inductive Lexeme
  | word (w : Str) (gap : Nat)
  | quoted (q : Str) (gap : Nat)
  deriving DecidableEq, Repr

/-- The characters of a lexeme, as they stand in the segment. -/
def Lexeme.text : Lexeme → Str
  | Lexeme.word w gap => w ++ List.replicate (gap + 1) SPACE
  | Lexeme.quoted q gap => SQUOTE :: q ++ SQUOTE :: List.replicate gap SPACE

/-- The argument a lexeme stands for. -/
def Lexeme.token : Lexeme → Str
  | Lexeme.word w _ => w
  | Lexeme.quoted q _ => q

/-- An unquoted token is not empty, does not start with a quote and holds no
space; a quoted span holds no quote. -/
def Lexeme.wf : Lexeme → Prop
  | Lexeme.word w _ => w ≠ [] ∧ w.head? ≠ some SQUOTE ∧ SPACE ∉ w
  | Lexeme.quoted q _ => SQUOTE ∉ q

/-- The text of a sequence of lexemes. -/
def lexemes_text : List Lexeme → Str
  | [] => []
  | l :: ls => l.text ++ lexemes_text ls

/-- An item of a segment: a word, or a single-quoted span. -/
inductive Item
  | word (w : Str)
  | quoted (q : Str)
  deriving DecidableEq, Repr

/-- The characters of an item, quotes included. -/
def Item.text : Item → Str
  | Item.word w => w
  | Item.quoted q => SQUOTE :: q ++ [SQUOTE]

/-- The item with its quotes removed. -/
def Item.value : Item → Str
  | Item.word w => w
  | Item.quoted q => q

/-- A word is not empty and holds neither a space nor a single quote; a
quoted span holds no single quote. -/
def Item.wf : Item → Prop
  | Item.word w => w ≠ [] ∧ SPACE ∉ w ∧ SQUOTE ∉ w
  | Item.quoted q => SQUOTE ∉ q

/-- The segment made of the given items, each item but the last being
followed by `gap + 1` spaces (the gap paired with the last item is not
used). -/
def items_text : List (Item × Nat) → Str
  | [] => []
  | [x] => x.1.text
  | x :: y :: rest => x.1.text ++ List.replicate (x.2 + 1) SPACE ++ items_text (y :: rest)

/-- The `if (count < MAX_ARGS - 1)` store of the tokenizer, applied to a
sequence of tokens in turn. -/
def store_all (MAX_ARGS : Nat) (argv : List Str) (toks : List Str) : List Str :=
  toks.foldl (fun a t => if a.length < MAX_ARGS - 1 then a ++ [t] else a) argv

instance Lexeme.decWf : (l : Lexeme) → Decidable l.wf
  | Lexeme.word w _ =>
    inferInstanceAs (Decidable (w ≠ [] ∧ w.head? ≠ some SQUOTE ∧ SPACE ∉ w))
  | Lexeme.quoted q _ => inferInstanceAs (Decidable (SQUOTE ∉ q))

instance Item.decWf : (it : Item) → Decidable it.wf
  | Item.word w => inferInstanceAs (Decidable (w ≠ [] ∧ SPACE ∉ w ∧ SQUOTE ∉ w))
  | Item.quoted q => inferInstanceAs (Decidable (SQUOTE ∉ q))

/-- The lexeme that an item followed by `gap + 1` spaces is. -/
def item_lexeme : Item → Nat → Lexeme
  | Item.word w, gap => Lexeme.word w gap
  | Item.quoted q, gap => Lexeme.quoted q (gap + 1)

/-- The lexemes of the buffer of a segment made of items: the last item is
followed by the one space that the tokenizer appends. -/
def items_lexemes : List (Item × Nat) → List Lexeme
  | [] => []
  | [x] => [item_lexeme x.1 0]
  | x :: y :: rest => item_lexeme x.1 x.2 :: items_lexemes (y :: rest)

/-- The state that `main` sets up before the first line is read: empty alias
table, empty history of capacity 16, `PATH=/bin`, `rc = EXIT_SUCCESS`; `HOME`
is inherited from the environment. -/
def main_init (home : Option Str) : Shell :=
  { rc := EXIT_SUCCESS, alias_hm := [], history := da_create 16,
    PATH := some "/bin".toList, HOME := home, trace := [] }

/-- A sample operating system for the concrete runs: `MAX_ARGS = 128`,
`MAX_LINE = 1024`; `/bin/ls`, `/bin/cat`, `/bin/wc` and `/bin/echo` are the
executable files; `chdir`, `execv` and `pipe` succeed; `fork` and `waitpid`
answer as given. -/
def demo_os (fork : Nat → Int) (status : Int → WaitStatus) : OS :=
  { MAX_ARGS := 128, MAX_LINE := 1024,
    access_x := fun p => p = "/bin/ls".toList || p = "/bin/cat".toList ||
      p = "/bin/wc".toList || p = "/bin/echo".toList,
    chdir_ok := fun _ => true, execv_ok := fun _ => true, pipe_ok := fun _ => true,
    fork := fork, garbage_pid := fun _ => 0, waitpid := status }

/-- In the parent: the child of stage `i` has pid `100 + i`. -/
def parent_fork (i : Nat) : Int := 100 + i

/-- Every child exits with status 0. -/
def all_exit_zero (_ : Int) : WaitStatus := WaitStatus.exited 0

/-! ## Vocabulary of the statements about `execute_line` -/

/-- The state `st2` differs from `st1` at most in `rc` and in warnings added
to the trace: nothing was forked, waited for, printed or changed. -/
def OnlyWarned (st1 st2 : Shell) : Prop :=
  st2.alias_hm = st1.alias_hm ∧ st2.history = st1.history ∧ st2.PATH = st1.PATH ∧
  st2.HOME = st1.HOME ∧ ∃ ms : List Msg, st2.trace = st1.trace ++ ms.map Event.warn

/-- Record several events in turn. -/
def emit_all (es : List Event) (st : Shell) : Shell :=
  { st with trace := st.trace ++ es }

/-- The segment has a command that is neither a builtin name nor resolvable:
its first token `c` is not one of the seven names and `find_executable`
returns `NULL` for it. -/
def unresolvable (os : OS) (st : Shell) (seg : Str) : Prop :=
  ∃ c, (parseline_no_subst os.MAX_ARGS st seg).2.args.head? = some c ∧
    is_builtin_name c = false ∧ find_executable os st c = none

/-- The event is a `waitpid()` call. -/
def is_waitpid : Event → Bool
  | Event.waitpid _ => true
  | _ => false

/-- The words joined by single spaces. -/
def join_spaces : List Str → Str
  | [] => []
  | [w] => w
  | w :: x :: rest => w ++ SPACE :: join_spaces (x :: rest)

/-- The report that `which cmd` owes: the alias definition if `cmd` is an
alias key; else "builtin" if it is one of the seven names; else the resolved
path; else "not found". -/
def which_report (os : OS) (st : Shell) (cmd : Str) : Event :=
  match hm_get st.alias_hm cmd with
  | some alias_val => Event.which_alias cmd alias_val
  | none =>
    if cmd ∈ builtins then Event.which_builtin cmd
    else
      match find_executable os st cmd with
      | some exec_path => Event.which_external cmd exec_path
      | none => Event.which_not_found cmd

/-! ## Vocabulary of the statements about the history -/

/-- The array holds exactly the strings `lines`, in order, in its first
`size` cells, and its bookkeeping is consistent. -/
def da_holds (da : DynamicArray) (lines : List Str) : Prop :=
  da.size = lines.length ∧ da.size ≤ da.capacity ∧ da.data.length = da.capacity ∧
  da.data.take da.size = lines.map some

/-- An optional sign in front of a numeral. -/
inductive Sign
  | absent
  | plus
  | minus
  deriving DecidableEq, Repr

/-- The characters of a sign. -/
def Sign.text : Sign → Str
  | Sign.absent => []
  | Sign.plus => ['+']
  | Sign.minus => ['-']

/-- The characters of a sequence of decimal digits, most significant first. -/
def digits_text (ds : List Nat) : Str :=
  ds.map (fun d => Char.ofNat (48 + d))

/-- The integer that a sign and a sequence of decimal digits denote. -/
def numeral_value (sg : Sign) (ds : List Nat) : Int :=
  match sg with
  | Sign.minus => -((Nat.ofDigits 10 ds.reverse : Nat) : Int)
  | _ => ((Nat.ofDigits 10 ds.reverse : Nat) : Int)

/-- The string `arg` is a decimal numeral of the integer `n` in the syntax
that `strtol` reads in base 10: optional white space, an optional sign, one
or more decimal digits, and nothing after them. -/
def IsNumeral (arg : Str) (n : Int) : Prop :=
  ∃ (ws : Str) (sg : Sign) (ds : List Nat),
    (∀ c ∈ ws, isspace c = true) ∧ ds ≠ [] ∧ (∀ d ∈ ds, d < 10) ∧
    arg = ws ++ (sg.text ++ digits_text ds) ∧ n = numeral_value sg ds

/-- A shell whose history holds the three lines `ls`, `pwd` and `cd /tmp`,
appended to the array that `main` creates. -/
def demo_history_shell : Shell :=
  { main_init none with
    history := ["ls".toList, "pwd".toList, "cd /tmp".toList].foldl da_put (da_create 16) }

/-- The first argument, `argv[0]`. -/
def argv0 (argv : List Str) : Str := argv.getD 0 []

/-- The globals other than `rc` are the same in both states: alias table,
history log, `PATH` and `HOME`. -/
def SameGlobals (st1 st2 : Shell) : Prop :=
  st2.alias_hm = st1.alias_hm ∧ st2.history = st1.history ∧ st2.PATH = st1.PATH ∧
  st2.HOME = st1.HOME

/-- The paths that `find_executable` tries for the command `cmd`, in order,
given the colon-delimited components of the search path: `d/cmd` for every
non-empty component `d`. -/
def path_candidates (cmd : Str) (components : List Str) : List Str :=
  (components.filter (fun d => d ≠ [])).map (fun d => d ++ '/' :: cmd)

/-- The sample operating system in which the `pipe()` of stage `k` fails. -/
def pipe_fails_os (k : Nat) (fork : Nat → Int) (status : Int → WaitStatus) : OS :=
  { demo_os fork status with pipe_ok := fun i => i != k }

/-- In the parent: the `fork()` of stage `k` fails, the child of any other
stage `i` has pid `100 + i`. -/
def fork_fails_at (k : Nat) (i : Nat) : Int := if i = k then -1 else 100 + i

/-- The sample operating system in which every path is an executable file. -/
def any_exec_os (fork : Nat → Int) (status : Int → WaitStatus) : OS :=
  { demo_os fork status with access_x := fun _ => true }

end Wsh

/-! # Theorems -/

namespace Wsh

/-! ## Lemmas about the string helpers -/

theorem filterMap_some_map {α β : Type} (f : α → β) (l : List α) :
    l.filterMap (fun x => some (f x)) = l.map f := by
  induction l with
  | nil => rfl
  | cons x xs ih => simp [ih]

theorem strchr_cut_append (c : Char) (a b : Str) (h : c ∉ a) :
    strchr_cut c (a ++ c :: b) = some (a, b) := by
  induction a with
  | nil => simp [strchr_cut]
  | cons x xs ih =>
    have hx : x ≠ c := fun e => h (by simp [e])
    have hxs : c ∉ xs := fun e => h (by simp [e])
    simp [strchr_cut, hx, ih hxs]

theorem strchr_cut_none (c : Char) (s : Str) (h : c ∉ s) : strchr_cut c s = none := by
  induction s with
  | nil => simp [strchr_cut]
  | cons x xs ih =>
    have hx : x ≠ c := fun e => h (by simp [e])
    have hxs : c ∉ xs := fun e => h (by simp [e])
    simp [strchr_cut, hx, ih hxs]

theorem strchr_cut_length (c : Char) (s tok rest : Str)
    (h : strchr_cut c s = some (tok, rest)) : tok.length + rest.length + 1 = s.length := by
  induction s generalizing tok with
  | nil => simp [strchr_cut] at h
  | cons x xs ih =>
    unfold strchr_cut at h
    split_ifs at h with hx
    · simp at h
      obtain ⟨rfl, rfl⟩ := h
      simp
    · cases hc : strchr_cut c xs with
      | none => simp [hc] at h
      | some pr =>
        obtain ⟨t, r⟩ := pr
        simp [hc] at h
        obtain ⟨rfl, rfl⟩ := h
        have := ih t hc
        simp
        omega

theorem skip_spaces_length (s : Str) : (skip_spaces s).length ≤ s.length := by
  induction s with
  | nil => simp [skip_spaces]
  | cons x xs ih =>
    unfold skip_spaces
    split_ifs
    · simp; omega
    · simp

theorem skip_spaces_replicate (n : Nat) (s : Str) :
    skip_spaces (List.replicate n SPACE ++ s) = skip_spaces s := by
  induction n with
  | zero => simp
  | succ k ih => simp [List.replicate_succ, skip_spaces, ih]

theorem parse_loop_nil (M fuel : Nat) (argv : List Str) :
    parse_loop M (fuel + 1) [] argv = LoopResult.done argv := rfl

theorem parse_loop_quote (M fuel : Nat) (p1 : Str) (argv : List Str) :
    parse_loop M (fuel + 1) (SQUOTE :: p1) argv =
      match strchr_cut SQUOTE p1 with
      | none => LoopResult.missing_quote
      | some (tok, rest) => parse_loop M fuel (skip_spaces rest) (store_all M argv [tok]) := by
  simp [parse_loop, store_all]

theorem parse_loop_plain (M fuel : Nat) (c : Char) (p1 : Str) (argv : List Str)
    (hc : c ≠ SQUOTE) :
    parse_loop M (fuel + 1) (c :: p1) argv =
      match strchr_cut SPACE (c :: p1) with
      | none => LoopResult.done argv
      | some (tok, rest) => parse_loop M fuel (skip_spaces rest) (store_all M argv [tok]) := by
  simp [parse_loop, store_all, hc]

/-- The tokenizer loop never uses up a fuel larger than the length of what is
left of the buffer. -/
theorem parse_loop_fuel (M : Nat) (fuel : Nat) (p : Str) (argv : List Str)
    (h : p.length < fuel) : parse_loop M fuel p argv ≠ LoopResult.out_of_fuel := by
  induction fuel generalizing p argv with
  | zero => omega
  | succ n ih =>
    cases p with
    | nil => simp [parse_loop]
    | cons c p1 =>
      by_cases hc : c = SQUOTE
      · subst hc
        rw [parse_loop_quote]
        cases hq : strchr_cut SQUOTE p1 with
        | none => simp
        | some pr =>
          obtain ⟨t, r⟩ := pr
          simp only
          apply ih
          have h1 := strchr_cut_length _ _ _ _ hq
          have h2 := skip_spaces_length r
          simp at h
          omega
      · rw [parse_loop_plain _ _ _ _ _ hc]
        cases hq : strchr_cut SPACE (c :: p1) with
        | none => simp
        | some pr =>
          obtain ⟨t, r⟩ := pr
          simp only
          apply ih
          have h1 := strchr_cut_length _ _ _ _ hq
          have h2 := skip_spaces_length r
          simp at h h1
          omega

theorem skip_spaces_cons_ne (c : Char) (s : Str) (h : c ≠ SPACE) :
    skip_spaces (c :: s) = c :: s := by
  simp [skip_spaces, h]

theorem squote_ne_space : SQUOTE ≠ SPACE := by decide

theorem skip_spaces_lexemes (ls : List Lexeme) (hwf : ∀ l ∈ ls, l.wf) (tail : Str)
    (htail : skip_spaces tail = tail) :
    skip_spaces (lexemes_text ls ++ tail) = lexemes_text ls ++ tail := by
  cases ls with
  | nil => simpa [lexemes_text] using htail
  | cons l ls =>
    have hl := hwf l (by simp)
    cases l with
    | word w gap =>
      obtain ⟨hne, -, hsp⟩ := hl
      cases w with
      | nil => exact absurd rfl hne
      | cons c w1 =>
        have hc : c ≠ SPACE := fun e => hsp (by simp [e])
        simp only [lexemes_text, Lexeme.text, List.cons_append]
        exact skip_spaces_cons_ne _ _ hc
    | quoted q gap =>
      simp only [lexemes_text, Lexeme.text, List.cons_append]
      exact skip_spaces_cons_ne _ _ squote_ne_space

theorem store_all_cons (M : Nat) (argv : List Str) (t : Str) (ts : List Str) :
    store_all M argv (t :: ts) = store_all M (store_all M argv [t]) ts := by
  simp [store_all]

theorem store_all_fits (M : Nat) (argv toks : List Str)
    (h : argv.length + toks.length ≤ M - 1) : store_all M argv toks = argv ++ toks := by
  induction toks generalizing argv with
  | nil => simp [store_all]
  | cons t ts ih =>
    rw [store_all_cons]
    have h1 : argv.length < M - 1 := by simp at h; omega
    have h2 : store_all M argv [t] = argv ++ [t] := by simp [store_all, h1]
    rw [h2, ih]
    · simp
    · simp at h ⊢; omega

/-- Each well-formed lexeme at the head of the buffer costs one round of the
loop and stores its token (when the cap allows). -/
theorem parse_loop_lexemes (M : Nat) (ls : List Lexeme) (hwf : ∀ l ∈ ls, l.wf)
    (tail : Str) (htail : skip_spaces tail = tail) (fuel : Nat) (argv : List Str) :
    parse_loop M (ls.length + fuel) (lexemes_text ls ++ tail) argv =
      parse_loop M fuel tail (store_all M argv (ls.map Lexeme.token)) := by
  induction ls generalizing argv with
  | nil => simp [lexemes_text, store_all]
  | cons l ls ih =>
    have hl := hwf l (by simp)
    have hwf1 : ∀ x ∈ ls, x.wf := fun x hx => hwf x (by simp [hx])
    have hskip := skip_spaces_lexemes ls hwf1 tail htail
    have hfuel : (l :: ls).length + fuel = (ls.length + fuel) + 1 := by simp; omega
    rw [hfuel, List.map_cons, store_all_cons]
    cases l with
    | word w gap =>
      obtain ⟨hne, hq, hsp⟩ := hl
      cases w with
      | nil => exact absurd rfl hne
      | cons c w1 =>
        have hc : c ≠ SQUOTE := fun e => hq (by simp [e])
        have hcut : strchr_cut SPACE (c :: (w1 ++
            (SPACE :: (List.replicate gap SPACE ++ (lexemes_text ls ++ tail))))) =
            some (c :: w1, List.replicate gap SPACE ++ (lexemes_text ls ++ tail)) := by
          have := strchr_cut_append SPACE (c :: w1)
            (List.replicate gap SPACE ++ (lexemes_text ls ++ tail)) hsp
          simpa using this
        have htxt : lexemes_text (Lexeme.word (c :: w1) gap :: ls) ++ tail =
            c :: (w1 ++ (SPACE :: (List.replicate gap SPACE ++ (lexemes_text ls ++ tail)))) := by
          simp [lexemes_text, Lexeme.text, List.replicate_succ]
        rw [htxt, parse_loop_plain _ _ _ _ _ hc, hcut]
        simp only [Lexeme.token]
        rw [skip_spaces_replicate, hskip, ih hwf1]
    | quoted q gap =>
      have hq : SQUOTE ∉ q := hl
      have hcut := strchr_cut_append SQUOTE q
        (List.replicate gap SPACE ++ (lexemes_text ls ++ tail)) hq
      have htxt : lexemes_text (Lexeme.quoted q gap :: ls) ++ tail =
          SQUOTE :: (q ++ SQUOTE :: (List.replicate gap SPACE ++ (lexemes_text ls ++ tail))) := by
        simp [lexemes_text, Lexeme.text]
      rw [htxt, parse_loop_quote, hcut]
      simp only [Lexeme.token]
      rw [skip_spaces_replicate, hskip, ih hwf1]

theorem lexemes_text_length (ls : List Lexeme) : ls.length ≤ (lexemes_text ls).length := by
  induction ls with
  | nil => simp
  | cons l ls ih =>
    cases l <;> simp [lexemes_text, Lexeme.text] <;> omega

/-- With more fuel than the buffer is long, the loop over a buffer made of
leading spaces, well-formed lexemes and a tail is the loop over the tail. -/
theorem parse_loop_lexemes_any_fuel (M : Nat) (ls : List Lexeme) (hwf : ∀ l ∈ ls, l.wf)
    (tail : Str) (htail : skip_spaces tail = tail) (lead : Nat) (extra : Nat) :
    ∃ fuel, tail.length < fuel ∧
      parse_loop M ((List.replicate lead SPACE ++ (lexemes_text ls ++ tail)).length + 1 + extra)
        (skip_spaces (List.replicate lead SPACE ++ (lexemes_text ls ++ tail))) [] =
      parse_loop M fuel tail (store_all M [] (ls.map Lexeme.token)) := by
  have hlen := lexemes_text_length ls
  refine ⟨(List.replicate lead SPACE ++ (lexemes_text ls ++ tail)).length + 1 + extra
    - ls.length, ?_, ?_⟩
  · simp; omega
  · rw [skip_spaces_replicate, skip_spaces_lexemes ls hwf tail htail]
    rw [← parse_loop_lexemes M ls hwf tail htail]
    congr 1
    simp; omega

/-! ## The tokenizer on an unterminated quote (C6) -/

theorem parse_buf_of_no_newline (s : Str) (h : s.getLast? ≠ some NEWLINE) :
    parse_buf s = s ++ [SPACE] := by
  simp [parse_buf, h]

/-- The buffer of a segment with a quote that is never closed still has a
quote that is never closed at the same place. -/
theorem parse_buf_open_quote (a rest : Str) (hrest : SQUOTE ∉ rest) :
    ∃ rest2, SQUOTE ∉ rest2 ∧ parse_buf (a ++ SQUOTE :: rest) = a ++ SQUOTE :: rest2 := by
  by_cases h : (a ++ SQUOTE :: rest).getLast? = some NEWLINE
  · have hne : rest ≠ [] := by
      intro e
      subst e
      have h1 : (a ++ [SQUOTE]).getLast? = some SQUOTE := by simp
      rw [h1] at h
      exact absurd h (by decide)
    refine ⟨rest.dropLast ++ [SPACE], ?_, ?_⟩
    · intro hm
      rcases List.mem_append.1 hm with h1 | h1
      · exact hrest (List.mem_of_mem_dropLast h1)
      · simp at h1
        exact squote_ne_space h1
    · simp only [parse_buf, h, if_true]
      rw [List.dropLast_append_of_ne_nil _ (by simp), List.dropLast_cons_of_ne_nil hne]
      simp
  · refine ⟨rest ++ [SPACE], ?_, ?_⟩
    · intro hm
      rcases List.mem_append.1 hm with h1 | h1
      · exact hrest h1
      · simp at h1
        exact squote_ne_space h1
    · rw [parse_buf_of_no_newline _ h]
      simp

/-- C6. When the tokenizer, after any leading spaces and any number of
complete tokens, reaches a token that starts with a single quote with no
single quote after it, `parseline_no_subst` returns `argc = 0` and
`argv[0] = NULL`, so none of the arguments stored before is returned, and
`rc` is `EXIT_FAILURE` (set by `wsh_warn(MISSING_CLOSING_QUOTE)`). -/
theorem parseline_missing_quote (M : Nat) (st : Shell) (lead : Nat) (ls : List Lexeme)
    (rest : Str) (hwf : ∀ l ∈ ls, l.wf) (hrest : SQUOTE ∉ rest) :
    parseline_no_subst M st
        (List.replicate lead SPACE ++ (lexemes_text ls ++ SQUOTE :: rest)) =
      (wsh_warn Msg.MISSING_CLOSING_QUOTE st, { argc := 0, argv := [none] }) ∧
    (parseline_no_subst M st
        (List.replicate lead SPACE ++ (lexemes_text ls ++ SQUOTE :: rest))).2.argv.get? 0
      = some none ∧
    (parseline_no_subst M st
        (List.replicate lead SPACE ++ (lexemes_text ls ++ SQUOTE :: rest))).2.args = [] ∧
    (parseline_no_subst M st
        (List.replicate lead SPACE ++ (lexemes_text ls ++ SQUOTE :: rest))).1.rc
      = EXIT_FAILURE := by
  have key : parseline_no_subst M st
      (List.replicate lead SPACE ++ (lexemes_text ls ++ SQUOTE :: rest)) =
      (wsh_warn Msg.MISSING_CLOSING_QUOTE st, { argc := 0, argv := [none] }) := by
    obtain ⟨rest2, hr2, hbuf⟩ :=
      parse_buf_open_quote (List.replicate lead SPACE ++ lexemes_text ls) rest hrest
    have hbuf2 : parse_buf (List.replicate lead SPACE ++ (lexemes_text ls ++ SQUOTE :: rest)) =
        List.replicate lead SPACE ++ (lexemes_text ls ++ SQUOTE :: rest2) := by
      simpa [List.append_assoc] using hbuf
    obtain ⟨fuel, hfuel, hloop⟩ := parse_loop_lexemes_any_fuel M ls hwf (SQUOTE :: rest2)
      (skip_spaces_cons_ne _ _ squote_ne_space) lead 0
    have hloop2 : parse_loop M
        ((List.replicate lead SPACE ++ (lexemes_text ls ++ SQUOTE :: rest2)).length + 1)
        (skip_spaces (List.replicate lead SPACE ++ (lexemes_text ls ++ SQUOTE :: rest2))) [] =
        LoopResult.missing_quote := by
      rw [Nat.add_zero] at hloop
      rw [hloop]
      obtain ⟨k, rfl⟩ : ∃ k, fuel = k + 1 := ⟨fuel - 1, by omega⟩
      rw [parse_loop_quote, strchr_cut_none _ _ hr2]
    simp only [parseline_no_subst, hbuf2, hloop2]
  refine ⟨key, ?_, ?_, ?_⟩ <;> rw [key] <;> simp [Parsed.args, wsh_warn]

/-- C6, on `echo 'a b'  'x y`: two complete tokens, then a quote that is never
closed. -/
theorem parseline_missing_quote_witness :
    (∀ l ∈ [Lexeme.word "echo".toList 0, Lexeme.quoted "a b".toList 2], l.wf) ∧
    SQUOTE ∉ "x y".toList ∧
    (parseline_no_subst 128 (main_init none)
        (List.replicate 0 SPACE ++
          (lexemes_text [Lexeme.word "echo".toList 0, Lexeme.quoted "a b".toList 2] ++
            SQUOTE :: "x y".toList))).2.args = [] ∧
    (parseline_no_subst 128 (main_init none)
        (List.replicate 0 SPACE ++
          (lexemes_text [Lexeme.word "echo".toList 0, Lexeme.quoted "a b".toList 2] ++
            SQUOTE :: "x y".toList))).1.rc = EXIT_FAILURE :=
  ⟨by decide, by decide,
   (parseline_missing_quote 128 (main_init none) 0
      [Lexeme.word "echo".toList 0, Lexeme.quoted "a b".toList 2] "x y".toList
      (by decide) (by decide)).2.2.1,
   (parseline_missing_quote 128 (main_init none) 0
      [Lexeme.word "echo".toList 0, Lexeme.quoted "a b".toList 2] "x y".toList
      (by decide) (by decide)).2.2.2⟩

/-! ## The tokenizer on a segment made of items (C4) -/

theorem item_lexeme_text (it : Item) (gap : Nat) :
    (item_lexeme it gap).text = it.text ++ List.replicate (gap + 1) SPACE := by
  cases it <;> simp [item_lexeme, Lexeme.text, Item.text, List.replicate_succ]

theorem item_lexeme_token (it : Item) (gap : Nat) : (item_lexeme it gap).token = it.value := by
  cases it <;> rfl

theorem item_lexeme_wf (it : Item) (gap : Nat) (h : it.wf) : (item_lexeme it gap).wf := by
  cases it with
  | word w =>
    obtain ⟨hne, hsp, hq⟩ := h
    refine ⟨hne, ?_, hsp⟩
    intro hh
    cases w with
    | nil => simp at hh
    | cons c w1 =>
      simp at hh
      exact hq (by simp [hh])
  | quoted q => exact h

theorem items_lexemes_text (items : List (Item × Nat)) (hne : items ≠ []) :
    items_text items ++ [SPACE] = lexemes_text (items_lexemes items) := by
  induction items with
  | nil => exact absurd rfl hne
  | cons x rest ih =>
    cases rest with
    | nil => simp [items_text, items_lexemes, lexemes_text, item_lexeme_text]
    | cons y rest2 =>
      have := ih (by simp)
      simp only [items_text, items_lexemes, lexemes_text, item_lexeme_text, List.append_assoc]
      rw [this]

theorem items_lexemes_tokens (items : List (Item × Nat)) :
    (items_lexemes items).map Lexeme.token = items.map (fun x => x.1.value) := by
  induction items with
  | nil => rfl
  | cons x rest ih =>
    cases rest with
    | nil => simp [items_lexemes, item_lexeme_token]
    | cons y rest2 =>
      simp only [items_lexemes, List.map_cons, item_lexeme_token]
      rw [ih]
      simp

theorem items_lexemes_wf (items : List (Item × Nat)) (hwf : ∀ x ∈ items, x.1.wf) :
    ∀ l ∈ items_lexemes items, l.wf := by
  induction items with
  | nil => simp [items_lexemes]
  | cons x rest ih =>
    cases rest with
    | nil =>
      intro l hl
      simp [items_lexemes] at hl
      subst hl
      exact item_lexeme_wf _ _ (hwf x (by simp))
    | cons y rest2 =>
      intro l hl
      simp only [items_lexemes, List.mem_cons] at hl
      rcases hl with rfl | hl
      · exact item_lexeme_wf _ _ (hwf x (by simp))
      · exact ih (fun z hz => hwf z (by simp [hz])) l (by simpa using hl)

/-- C4 as stated fails on a segment that ends in a newline: the word `a`
followed by a newline is one item without space or quote, and the tokenizer
returns `a` without the newline. -/
theorem parseline_items_newline_counterexample :
    (∀ x ∈ [(Item.word [Char.ofNat 97, NEWLINE], 0)], x.1.wf) ∧
    [(Item.word [Char.ofNat 97, NEWLINE], 0)].length ≤ 128 - 1 ∧
    (parseline_no_subst 128 (main_init none)
        (items_text [(Item.word [Char.ofNat 97, NEWLINE], 0)])).2.args = [[Char.ofNat 97]] ∧
    (parseline_no_subst 128 (main_init none)
        (items_text [(Item.word [Char.ofNat 97, NEWLINE], 0)])).2.args ≠
      [(Item.word [Char.ofNat 97, NEWLINE], 0)].map (fun x => x.1.value) := by
  decide

/-- C4, amended. For a segment made of at most `MAX_ARGS - 1` items
separated by one or more spaces, each item a non-empty word without space
and without single quote or a single-quoted span without single quote inside,
and which does not end in a newline, `parseline_no_subst` returns exactly the
items in order with the quotes removed, `argc` is the number of items,
`argv[argc]` is `NULL`, and nothing is reported. -/
theorem parseline_items (M : Nat) (st : Shell) (items : List (Item × Nat))
    (hwf : ∀ x ∈ items, x.1.wf) (hcap : items.length ≤ M - 1)
    (hnl : (items_text items).getLast? ≠ some NEWLINE) :
    parseline_no_subst M st (items_text items) =
      (st, { argc := items.length,
             argv := items.map (fun x => some x.1.value) ++ [none] }) ∧
    (parseline_no_subst M st (items_text items)).2.args = items.map (fun x => x.1.value) ∧
    (parseline_no_subst M st (items_text items)).2.argv.get? items.length = some none := by
  have key : parseline_no_subst M st (items_text items) =
      (st, { argc := items.length,
             argv := items.map (fun x => some x.1.value) ++ [none] }) := by
    by_cases hne : items = []
    · subst hne
      simp [parseline_no_subst, items_text, parse_buf, skip_spaces, parse_loop]
    · have hbuf : parse_buf (items_text items) = lexemes_text (items_lexemes items) := by
        rw [parse_buf_of_no_newline _ hnl, items_lexemes_text items hne]
      obtain ⟨fuel, hfuel, hloop⟩ := parse_loop_lexemes_any_fuel M (items_lexemes items)
        (items_lexemes_wf items hwf) [] rfl 0 0
      simp only [List.replicate_zero, List.nil_append, List.append_nil, Nat.add_zero] at hloop
      obtain ⟨k, rfl⟩ : ∃ k, fuel = k + 1 := ⟨fuel - 1, by omega⟩
      rw [parse_loop_nil, items_lexemes_tokens, store_all_fits _ _ _ (by simpa using hcap)] at hloop
      simp only [parseline_no_subst, hbuf, hloop]
      simp
  refine ⟨key, ?_, ?_⟩
  · rw [key]
    simp [Parsed.args, List.take_append_eq_append_take, List.filterMap_map]
    exact filterMap_some_map _ _
  · rw [key]
    simp [List.getElem?_append_right]

/-- C4, amended, on the segment `'a b' c` of the spec, which gives
`["a b", "c"]`. -/
theorem parseline_items_witness :
    (∀ x ∈ [(Item.quoted "a b".toList, 0), (Item.word "c".toList, 0)], x.1.wf) ∧
    [(Item.quoted "a b".toList, 0), (Item.word "c".toList, 0)].length ≤ 128 - 1 ∧
    (items_text [(Item.quoted "a b".toList, 0), (Item.word "c".toList, 0)]).getLast?
      ≠ some NEWLINE ∧
    (parseline_no_subst 128 (main_init none)
        (items_text [(Item.quoted "a b".toList, 0), (Item.word "c".toList, 0)])).2.args =
      ["a b".toList, "c".toList] :=
  ⟨by decide, by decide, by decide,
   (parseline_items 128 (main_init none)
      [(Item.quoted "a b".toList, 0), (Item.word "c".toList, 0)]
      (by decide) (by decide) (by decide)).2.1⟩

/-! ## Alias resolution in `execute_single_command` (C3) -/

/-- When the segment starts with the alias key followed by a space, the
command that is tokenized is the alias value, a space and the rest. -/
theorem final_cmd_alias (hm : HashMap) (k v t : Str) (hk : SPACE ∉ k)
    (hv : hm_get hm k = some v) : final_cmd hm (k ++ SPACE :: t) = v ++ SPACE :: t := by
  simp [final_cmd, strchr_cut_append SPACE k t hk, hv, append]

/-- When the segment is the alias key alone, the command that is tokenized is
the alias value. -/
theorem final_cmd_alias_alone (hm : HashMap) (k v : Str) (hk : SPACE ∉ k)
    (hv : hm_get hm k = some v) : final_cmd hm k = v := by
  simp [final_cmd, strchr_cut_none SPACE k hk, hv]

/-- C3 fails on a segment with a leading space, which is what the pipe
splitter hands over for `cat | ls /tmp`: with the alias `ls -> ls -la`, the
segment `ls /tmp` runs as `ls -la /tmp`, but the segment ` ls /tmp` has the
empty string as its first word, no alias is applied and it runs as
`ls /tmp`; followed into the child of stage 1, `cat | ls /tmp` ends in
`execv("/bin/ls", ["ls", "/tmp"])`. -/
theorem alias_skipped_after_leading_space :
    hm_get [("ls".toList, "ls -la".toList)] "ls".toList = some "ls -la".toList ∧
    (execute_single_command (demo_os parent_fork all_exit_zero)
        { main_init none with alias_hm := [("ls".toList, "ls -la".toList)] }
        "ls /tmp".toList).2 =
      LineEnd.execv "/bin/ls".toList ["ls".toList, "-la".toList, "/tmp".toList] ∧
    final_cmd [("ls".toList, "ls -la".toList)] " ls /tmp".toList = " ls /tmp".toList ∧
    (execute_single_command (demo_os parent_fork all_exit_zero)
        { main_init none with alias_hm := [("ls".toList, "ls -la".toList)] }
        " ls /tmp".toList).2 =
      LineEnd.execv "/bin/ls".toList ["ls".toList, "/tmp".toList] ∧
    split_pipe 128 "cat | ls /tmp".toList = ["cat ".toList, " ls /tmp".toList] ∧
    (execute_line (demo_os (fun i => if i = 1 then 0 else 100) all_exit_zero)
        { main_init none with alias_hm := [("ls".toList, "ls -la".toList)] }
        "cat | ls /tmp".toList).2 =
      LineEnd.execv "/bin/ls".toList ["ls".toList, "/tmp".toList] := by
  decide

/-! ## Unterminated quote in a pipeline (C5) -/

/-- C5 fails on the pipeline `echo 'a | cat`: the first segment has a quote
that is never closed, the tokenizer reports it, and pre-validation skips the
segment (`argc = 0`) with `validation_passed` still set; both stages are
forked and waited for, `rc` ends as the status of the last child (0 here),
and the child of stage 1 runs `cat`. On the single-command path the same
quote stops the line with `rc = EXIT_FAILURE` and nothing forked. -/
theorem unterminated_quote_pipeline_forks :
    (parseline_no_subst 128 (main_init none) ("echo ".toList ++ SQUOTE :: "a ".toList)).2.argc
      = 0 ∧
    (execute_line (demo_os parent_fork all_exit_zero) (main_init none)
        ("echo ".toList ++ SQUOTE :: "a | cat".toList)).1.trace =
      [Event.warn Msg.MISSING_CLOSING_QUOTE, Event.pipe 0 true,
       Event.fork 0 ("echo ".toList ++ SQUOTE :: "a ".toList) 100,
       Event.fork 1 " cat".toList 101, Event.waitpid 100, Event.waitpid 101] ∧
    (execute_line (demo_os parent_fork all_exit_zero) (main_init none)
        ("echo ".toList ++ SQUOTE :: "a | cat".toList)).1.rc = EXIT_SUCCESS ∧
    (execute_line (demo_os (fun i => if i = 1 then 0 else 100) all_exit_zero) (main_init none)
        ("echo ".toList ++ SQUOTE :: "a | cat".toList)).2 =
      LineEnd.execv "/bin/cat".toList ["cat".toList] ∧
    (execute_line (demo_os parent_fork all_exit_zero) (main_init none)
        ("echo ".toList ++ SQUOTE :: "a".toList)).1.trace =
      [Event.warn Msg.MISSING_CLOSING_QUOTE] ∧
    (execute_line (demo_os parent_fork all_exit_zero) (main_init none)
        ("echo ".toList ++ SQUOTE :: "a".toList)).1.rc = EXIT_FAILURE := by
  decide

/-! ## Empty pipe segments (C7) -/

/-- C7 fails on lines whose empty piece holds no character at all, because
`strtok_r` skips runs of `|`: `ls || wc` is split into the two segments `ls `
and ` wc` and runs as a two-stage pipeline, `ls |` and `| ls` are run as the
single command `ls`; no `EMPTY_PIPE_SEGMENT` is reported and `rc` is not
`EXIT_FAILURE`. A piece made of spaces only, as in `ls | | wc`, is
rejected. -/
theorem empty_segment_not_rejected :
    split_pipe 128 "ls || wc".toList = ["ls ".toList, " wc".toList] ∧
    (execute_line (demo_os parent_fork all_exit_zero) (main_init none) "ls || wc".toList).1.trace =
      [Event.pipe 0 true, Event.fork 0 "ls ".toList 100, Event.fork 1 " wc".toList 101,
       Event.waitpid 100, Event.waitpid 101] ∧
    (execute_line (demo_os parent_fork all_exit_zero) (main_init none) "ls || wc".toList).1.rc
      = EXIT_SUCCESS ∧
    (execute_line (demo_os parent_fork all_exit_zero) (main_init none) "ls |".toList).1.trace =
      [Event.fork 0 "ls ".toList 100, Event.waitpid 100] ∧
    (execute_line (demo_os parent_fork all_exit_zero) (main_init none) "| ls".toList).1.trace =
      [Event.fork 0 " ls".toList 100, Event.waitpid 100] ∧
    (execute_line (demo_os parent_fork all_exit_zero) (main_init none) "ls | | wc".toList).1.trace =
      [Event.warn Msg.EMPTY_PIPE_SEGMENT] ∧
    (execute_line (demo_os parent_fork all_exit_zero) (main_init none) "ls | | wc".toList).1.rc
      = EXIT_FAILURE := by
  decide

/-! ## Facts about `parseline_no_subst` as used by `execute_line` -/

/-- The loop of `parseline_no_subst` never runs out of fuel: the call either
succeeds with `argc` arguments followed by `NULL`, leaving the state alone, or
reports the missing quote and returns no argument. -/
theorem parseline_cases (M : Nat) (st : Shell) (s : Str) :
    (∃ args : List Str, parseline_no_subst M st s =
        (st, { argc := args.length, argv := args.map some ++ [none] })) ∨
    parseline_no_subst M st s =
      (wsh_warn Msg.MISSING_CLOSING_QUOTE st, { argc := 0, argv := [none] }) := by
  have hfuel := parse_loop_fuel M ((parse_buf s).length + 1) (skip_spaces (parse_buf s)) []
    (by have := skip_spaces_length (parse_buf s); omega)
  cases hl : parse_loop M ((parse_buf s).length + 1) (skip_spaces (parse_buf s)) [] with
  | done argv => exact Or.inl ⟨argv, by simp [parseline_no_subst, hl]⟩
  | missing_quote => exact Or.inr (by simp [parseline_no_subst, hl])
  | out_of_fuel => exact absurd hl hfuel

theorem parsed_args_shape (args : List Str) :
    Parsed.args { argc := args.length, argv := args.map some ++ [none] } = args := by
  simp [Parsed.args, List.take_append_eq_append_take, List.filterMap_map]

/-- What `parseline_no_subst` returns does not depend on the globals. -/
theorem parseline_result_indep (M : Nat) (st st2 : Shell) (s : Str) :
    (parseline_no_subst M st s).2 = (parseline_no_subst M st2 s).2 := by
  simp only [parseline_no_subst]
  cases parse_loop M ((parse_buf s).length + 1) (skip_spaces (parse_buf s)) [] <;> rfl

theorem OnlyWarned.refl (st : Shell) : OnlyWarned st st :=
  ⟨rfl, rfl, rfl, rfl, [], by simp⟩

theorem OnlyWarned.trans {a b c : Shell} (h1 : OnlyWarned a b) (h2 : OnlyWarned b c) :
    OnlyWarned a c := by
  obtain ⟨a1, a2, a3, a4, ms1, a5⟩ := h1
  obtain ⟨b1, b2, b3, b4, ms2, b5⟩ := h2
  exact ⟨b1.trans a1, b2.trans a2, b3.trans a3, b4.trans a4, ms1 ++ ms2, by simp [b5, a5]⟩

theorem OnlyWarned.warn (m : Msg) (st : Shell) : OnlyWarned st (wsh_warn m st) :=
  ⟨rfl, rfl, rfl, rfl, [m], by simp [wsh_warn]⟩

theorem parseline_only_warned (M : Nat) (st : Shell) (s : Str) :
    OnlyWarned st (parseline_no_subst M st s).1 := by
  rcases parseline_cases M st s with ⟨args, h⟩ | h
  · rw [h]; exact OnlyWarned.refl st
  · rw [h]; exact OnlyWarned.warn _ st

theorem find_executable_path_only (os : OS) (st st2 : Shell) (c : Str)
    (h : st2.PATH = st.PATH) : find_executable os st2 c = find_executable os st c := by
  simp [find_executable, h]

/-! ## Pre-validation of a pipeline (C1) -/

theorem validate_segment_only_warned (os : OS) (acc : Shell × Bool) (seg : Str) :
    OnlyWarned acc.1 (validate_segment os acc seg).1 ∧
    ((validate_segment os acc seg).2 = true → acc.2 = true) := by
  have hp := parseline_only_warned os.MAX_ARGS acc.1 seg
  unfold validate_segment
  simp only
  split_ifs with h1 h2
  · exact ⟨hp, id⟩
  · cases hf : find_executable os (parseline_no_subst os.MAX_ARGS acc.1 seg).1
        ((parseline_no_subst os.MAX_ARGS acc.1 seg).2.args.getD 0 []) with
    | none => exact ⟨hp.trans (OnlyWarned.warn _ _), by simp⟩
    | some x => exact ⟨hp, id⟩
  · exact ⟨hp, id⟩

theorem validate_segment_bad (os : OS) (st : Shell) (acc : Shell × Bool) (seg : Str)
    (hst : OnlyWarned st acc.1) (hbad : unresolvable os st seg) :
    (validate_segment os acc seg).2 = false := by
  obtain ⟨c, hc, hb, hf⟩ := hbad
  rw [parseline_result_indep os.MAX_ARGS st acc.1 seg] at hc
  have hpath : (parseline_no_subst os.MAX_ARGS acc.1 seg).1.PATH = st.PATH :=
    ((parseline_only_warned os.MAX_ARGS acc.1 seg).2.2.1).trans hst.2.2.1
  rcases parseline_cases os.MAX_ARGS acc.1 seg with ⟨args, h⟩ | h
  · rw [h] at hc hpath
    simp only [parsed_args_shape] at hc
    cases args with
    | nil => simp at hc
    | cons a rest =>
      simp at hc
      subst hc
      have hf2 : find_executable os acc.1 a = none := by
        rw [find_executable_path_only os st acc.1 a hpath]; exact hf
      unfold validate_segment
      simp only [h, parsed_args_shape]
      simp [hb, hf2]
  · rw [h] at hc
    simp [Parsed.args] at hc

theorem validate_fold (os : OS) (st : Shell) (segs : List Str) (acc : Shell × Bool)
    (hst : OnlyWarned st acc.1) :
    OnlyWarned st (segs.foldl (validate_segment os) acc).1 ∧
    ((segs.foldl (validate_segment os) acc).2 = true → acc.2 = true) ∧
    ((∃ seg ∈ segs, unresolvable os st seg) →
      (segs.foldl (validate_segment os) acc).2 = false) := by
  induction segs generalizing acc with
  | nil => exact ⟨hst, id, by simp⟩
  | cons seg rest ih =>
    have h1 := validate_segment_only_warned os acc seg
    have h2 := ih (validate_segment os acc seg) (hst.trans h1.1)
    simp only [List.foldl_cons]
    refine ⟨h2.1, fun h => h1.2 (h2.2.1 h), ?_⟩
    rintro ⟨s, hs, hbad⟩
    rcases List.mem_cons.1 hs with rfl | hs
    · have hb := validate_segment_bad os st acc s hst hbad
      by_contra hne
      have ht : (List.foldl (validate_segment os) (validate_segment os acc s) rest).2 = true := by
        simpa using hne
      have := h2.2.1 ht
      rw [hb] at this
      exact absurd this (by simp)
    · exact h2.2.2 ⟨s, hs, hbad⟩

theorem is_builtin_name_iff (c : Str) : is_builtin_name c = true ↔ c ∈ builtins := by
  simp [is_builtin_name, builtins, List.any_cons]

/-- C8. `which c` (argc = 2) appends exactly one report to the trace, chosen
in this precedence: the alias definition if `c` is an alias key; else
"builtin" if `c` is one of the seven builtin names; else the path returned by
`find_executable` if it resolves; else "not found". In particular an aliased
name is reported as the alias whether or not it is also a builtin name or
resolvable. The call returns "handled" with `rc = EXIT_SUCCESS` and changes
nothing else. -/
theorem which_precedence (os : OS) (st : Shell) (c : Str) :
    (handle_builtin os st ["which".toList, c]).2 = Handled.returned true ∧
    (handle_builtin os st ["which".toList, c]).1 =
      { emit (which_report os st c) st with rc := EXIT_SUCCESS } ∧
    (handle_builtin os st ["which".toList, c]).1.trace = st.trace ++ [which_report os st c] ∧
    (∀ v, hm_get st.alias_hm c = some v → which_report os st c = Event.which_alias c v) ∧
    (hm_get st.alias_hm c = none → c ∈ builtins →
      which_report os st c = Event.which_builtin c) ∧
    (∀ path, hm_get st.alias_hm c = none → c ∉ builtins →
      find_executable os st c = some path → which_report os st c = Event.which_external c path) ∧
    (hm_get st.alias_hm c = none → c ∉ builtins → find_executable os st c = none →
      which_report os st c = Event.which_not_found c) := by
  have e1 : ("which".toList = "cd".toList) = False := by decide
  have e2 : ("which".toList = "path".toList) = False := by decide
  have e3 : ("which".toList = "alias".toList) = False := by decide
  have e4 : ("which".toList = "unalias".toList) = False := by decide
  have key : handle_builtin os st ["which".toList, c] =
      ({ emit (which_report os st c) st with rc := EXIT_SUCCESS }, Handled.returned true) := by
    unfold handle_builtin which_report
    simp only [List.getD_cons_zero, e1, e2, e3, e4, if_false, if_true, List.length_cons,
      List.length_nil, ne_eq, not_true_eq_false, List.getD_cons_succ, Nat.zero_add,
      Nat.reduceAdd]
    cases ha : hm_get st.alias_hm c with
    | some v => rfl
    | none =>
      simp only
      by_cases hb : c ∈ builtins
      · have hb2 : is_builtin_name c = true := (is_builtin_name_iff c).2 hb
        simp [hb, hb2]
      · have hb2 : ¬ (is_builtin_name c = true) := fun h => hb ((is_builtin_name_iff c).1 h)
        simp only [hb, hb2, if_false]
        cases find_executable os st c <;> rfl
  refine ⟨by rw [key], by rw [key], by rw [key]; simp [emit], ?_, ?_, ?_, ?_⟩
  · intro v hv
    simp [which_report, hv]
  · intro ha hb
    simp [which_report, ha, hb]
  · intro path ha hb hf
    simp [which_report, ha, hb, hf]
  · intro ha hb hf
    simp [which_report, ha, hb, hf]

/-- C8 on a name that is both aliased and resolvable (`ls`), and on a name
that is both aliased and a builtin name (`cd`): the alias is reported. -/
theorem which_precedence_witness :
    (hm_get [("ls".toList, "ls -la".toList), ("cd".toList, "echo".toList)] "ls".toList
      = some "ls -la".toList) ∧
    find_executable (demo_os parent_fork all_exit_zero)
      { main_init none with
        alias_hm := [("ls".toList, "ls -la".toList), ("cd".toList, "echo".toList)] }
      "ls".toList = some "/bin/ls".toList ∧
    which_report (demo_os parent_fork all_exit_zero)
      { main_init none with
        alias_hm := [("ls".toList, "ls -la".toList), ("cd".toList, "echo".toList)] }
      "ls".toList = Event.which_alias "ls".toList "ls -la".toList ∧
    "cd".toList ∈ builtins ∧
    which_report (demo_os parent_fork all_exit_zero)
      { main_init none with
        alias_hm := [("ls".toList, "ls -la".toList), ("cd".toList, "echo".toList)] }
      "cd".toList = Event.which_alias "cd".toList "echo".toList :=
  ⟨by decide, by decide,
   (which_precedence (demo_os parent_fork all_exit_zero)
      { main_init none with
        alias_hm := [("ls".toList, "ls -la".toList), ("cd".toList, "echo".toList)] }
      "ls".toList).2.2.2.1 "ls -la".toList (by decide),
   by decide,
   (which_precedence (demo_os parent_fork all_exit_zero)
      { main_init none with
        alias_hm := [("ls".toList, "ls -la".toList), ("cd".toList, "echo".toList)] }
      "cd".toList).2.2.2.1 "echo".toList (by decide)⟩

/-! ## The `alias` builtin (C10) -/

theorem hm_get_delete_self (hm : HashMap) (k : Str) : hm_get (hm_delete hm k) k = none := by
  induction hm with
  | nil => rfl
  | cons x rest ih =>
    obtain ⟨a, b⟩ := x
    by_cases h : a = k
    · simpa [hm_delete, List.filter_cons, h] using ih
    · simp only [hm_delete, List.filter_cons, bne_iff_ne, ne_eq, h, not_false_eq_true,
        decide_True, if_true, hm_get, if_false]
      simpa [hm_delete] using ih

theorem hm_get_delete_other (hm : HashMap) (k n : Str) (h : k ≠ n) :
    hm_get (hm_delete hm n) k = hm_get hm k := by
  induction hm with
  | nil => rfl
  | cons x rest ih =>
    obtain ⟨a, b⟩ := x
    by_cases ha : a = n
    · have hak : a ≠ k := fun e => h (e ▸ ha)
      simp only [hm_get, hak, if_false]
      simpa [hm_delete, List.filter_cons, ha] using ih
    · simp only [hm_delete, List.filter_cons, bne_iff_ne, ne_eq, ha, not_false_eq_true,
        decide_True, if_true, hm_get]
      by_cases hak : a = k
      · simp [hak]
      · simp only [hak, if_false]
        simpa [hm_delete] using ih

theorem hm_get_put_self (hm : HashMap) (n v : Str) : hm_get (hm_put hm n v) n = some v := by
  simp [hm_put, hm_get]

theorem hm_get_put_other (hm : HashMap) (k n v : Str) (h : k ≠ n) :
    hm_get (hm_put hm n v) k = hm_get hm k := by
  have hn : n ≠ k := fun e => h e.symm
  simp only [hm_put, hm_get, hn, if_false]
  exact hm_get_delete_other hm k n h

theorem alias_extra_value (ws : List Str) (v : Str) (st : Shell) :
    (alias_extra ws (v, st)).1 = v ++ (ws.map (fun w => SPACE :: w)).flatten := by
  induction ws generalizing v st with
  | nil => simp [alias_extra]
  | cons w rest ih => simp [alias_extra, ih, append]

theorem alias_extra_state (ws : List Str) (v : Str) (st : Shell) :
    OnlyWarned st (alias_extra ws (v, st)).2 := by
  induction ws generalizing v st with
  | nil => exact OnlyWarned.refl st
  | cons w rest ih =>
    simp only [alias_extra]
    exact (OnlyWarned.warn _ st).trans (ih _ _)

theorem join_spaces_cons (w : Str) (ws : List Str) :
    join_spaces (w :: ws) = w ++ (ws.map (fun x => SPACE :: x)).flatten := by
  induction ws generalizing w with
  | nil => simp [join_spaces]
  | cons x rest ih => simp [join_spaces, ih]

/-- C10. Dispatching `[alias, n, =, w1, ..., wk]` with `k ≥ 1` is handled and
leaves the alias table as `hm_put` of `n` and the words joined by single
spaces: `n` maps to that value, replacing any earlier one, and every other
key maps to what it did. After `alias ll = ls -la`, the child that runs the
segment `ll /tmp` calls `execv("/bin/ls", ["ls", "-la", "/tmp"])`. -/
theorem alias_define (os : OS) (st : Shell) (n w : Str) (ws : List Str) :
    (handle_builtin os st ("alias".toList :: n :: "=".toList :: w :: ws)).2 =
      Handled.returned true ∧
    (handle_builtin os st ("alias".toList :: n :: "=".toList :: w :: ws)).1.alias_hm =
      hm_put st.alias_hm n (join_spaces (w :: ws)) ∧
    hm_get (handle_builtin os st ("alias".toList :: n :: "=".toList :: w :: ws)).1.alias_hm n =
      some (join_spaces (w :: ws)) ∧
    (∀ k, k ≠ n →
      hm_get (handle_builtin os st ("alias".toList :: n :: "=".toList :: w :: ws)).1.alias_hm k =
        hm_get st.alias_hm k) ∧
    (execute_line (demo_os parent_fork all_exit_zero) (main_init none)
        "alias ll = ls -la".toList).1.alias_hm = [("ll".toList, "ls -la".toList)] ∧
    (execute_line (demo_os (fun _ => 0) all_exit_zero)
        (execute_line (demo_os parent_fork all_exit_zero) (main_init none)
          "alias ll = ls -la".toList).1
        "ll /tmp".toList).2 =
      LineEnd.execv "/bin/ls".toList ["ls".toList, "-la".toList, "/tmp".toList] := by
  have e1 : ("alias".toList = "cd".toList) = False := by decide
  have e2 : ("alias".toList = "path".toList) = False := by decide
  have hhm : (handle_builtin os st ("alias".toList :: n :: "=".toList :: w :: ws)) =
      ({ (alias_extra ws (w, st)).2 with
          alias_hm := hm_put (alias_extra ws (w, st)).2.alias_hm n (alias_extra ws (w, st)).1,
          rc := EXIT_SUCCESS }, Handled.returned true) := by
    unfold handle_builtin
    simp [e1, e2]
  have hal : (handle_builtin os st ("alias".toList :: n :: "=".toList :: w :: ws)).1.alias_hm =
      hm_put st.alias_hm n (join_spaces (w :: ws)) := by
    rw [hhm]
    simp only
    rw [alias_extra_value, join_spaces_cons, (alias_extra_state ws w st).1]
  refine ⟨by rw [hhm], hal, ?_, ?_, by decide, by decide⟩
  · rw [hal]; exact hm_get_put_self _ _ _
  · intro k hk
    rw [hal]; exact hm_get_put_other _ _ _ _ hk

/-- C10 on `alias ls = ls -la` over a table that already maps `ls` and
`ll`: `ll` keeps its value. -/
theorem alias_define_witness :
    "ll".toList ≠ "ls".toList ∧
    hm_get (handle_builtin (demo_os parent_fork all_exit_zero)
        { main_init none with alias_hm := [("ls".toList, "ls".toList), ("ll".toList, "ls -l".toList)] }
        ("alias".toList :: "ls".toList :: "=".toList :: "ls".toList :: ["-la".toList])).1.alias_hm
      "ll".toList = some "ls -l".toList :=
  ⟨by decide,
   ((alias_define (demo_os parent_fork all_exit_zero)
      { main_init none with alias_hm := [("ls".toList, "ls".toList), ("ll".toList, "ls -l".toList)] }
      "ls".toList "ls".toList ["-la".toList]).2.2.2.1 "ll".toList (by decide)).trans
    (by decide)⟩

/-! ## The history log (C9) -/

theorem take_set_succ {α : Type} (l : List α) (n : Nat) (x : α) (h : n < l.length) :
    (l.set n x).take (n + 1) = l.take n ++ [x] := by
  induction l generalizing n with
  | nil => simp at h
  | cons a rest ih =>
    cases n with
    | zero => simp
    | succ k =>
      simp only [List.set_cons_succ, List.take_succ_cons, List.cons_append]
      rw [ih k (by simpa using h)]

theorem da_holds_create (cap : Nat) : da_holds (da_create cap) [] := by
  simp [da_holds, da_create]

theorem da_holds_put (da : DynamicArray) (lines : List Str) (v : Str)
    (h : da_holds da lines) : da_holds (da_put da v) (lines ++ [v]) := by
  obtain ⟨h1, h2, h3, h4⟩ := h
  unfold da_put
  by_cases hfull : da.size ≥ da.capacity
  · have hsz : da.size = da.capacity := by omega
    simp only [hfull, if_true]
    by_cases h0 : da.capacity = 0
    · simp only [h0, if_true]
      refine ⟨by simp [h1], by simp; omega, by simp [h3, h0], ?_⟩
      simp only
      rw [take_set_succ _ _ _ (by simp [h3]; omega),
        List.take_append_of_le_length (by omega), h4]
      simp
    · simp only [h0, if_false]
      refine ⟨by simp [h1], by simp; omega, by simp [h3]; omega, ?_⟩
      simp only
      rw [take_set_succ _ _ _ (by simp [h3]; omega),
        List.take_append_of_le_length (by omega), h4]
      simp
  · simp only [hfull, if_false]
    refine ⟨by simp [h1], by simp; omega, by simp [h3], ?_⟩
    simp only
    rw [take_set_succ _ _ _ (by omega), h4]
    simp

theorem da_holds_foldl (l2 : List Str) (da : DynamicArray) (lines : List Str)
    (h : da_holds da lines) : da_holds (l2.foldl da_put da) (lines ++ l2) := by
  induction l2 generalizing da lines with
  | nil => simpa using h
  | cons v rest ih =>
    have := ih (da_put da v) (lines ++ [v]) (da_holds_put da lines v h)
    simpa using this

/-- The array built by appending `lines` to a fresh array holds `lines`. -/
theorem da_holds_built (cap : Nat) (lines : List Str) :
    da_holds (lines.foldl da_put (da_create cap)) lines := by
  simpa using da_holds_foldl lines (da_create cap) [] (da_holds_create cap)

theorem da_get_of_holds (da : DynamicArray) (lines : List Str) (h : da_holds da lines)
    (i : Nat) : da_get da i = lines.get? i := by
  obtain ⟨h1, h2, h3, h4⟩ := h
  unfold da_get
  by_cases hi : i ≥ da.size
  · simp only [hi, if_true]
    rw [List.get?_eq_none.2 (by omega)]
  · simp only [hi, if_false]
    have hlt : i < da.size := by omega
    have e1 : da.data.get? i = (da.data.take da.size).get? i := by
      simp [List.getElem?_take, hlt]
    rw [e1, h4]
    simp only [List.get?_eq_getElem?, List.getElem?_map]
    cases lines[i]? <;> rfl

theorem history_print_fold (is : List Nat) (st : Shell) :
    is.foldl (fun s i => emit (Event.print (da_get s.history i)) s) st =
      emit_all (is.map (fun i => Event.print (da_get st.history i))) st := by
  induction is generalizing st with
  | nil => simp [emit_all]
  | cons i rest ih =>
    rw [List.foldl_cons, ih]
    simp [emit, emit_all]

theorem range_map_get {α β : Type} (f : Option α → β) (l : List α) :
    (List.range l.length).map (fun i => f (l.get? i)) = l.map (fun x => f (some x)) := by
  apply List.ext_getElem
  · simp
  · intro i h1 h2
    simp at h1
    simp [h1]

/-! ### `strtol` on numerals and on other strings -/

theorem skip_isspace_append (ws t : Str) (hws : ∀ c ∈ ws, isspace c = true) :
    skip_isspace (ws ++ t) = skip_isspace t := by
  induction ws with
  | nil => rfl
  | cons c rest ih =>
    have hc := hws c (by simp)
    simp only [List.cons_append, skip_isspace, hc, if_true]
    exact ih (fun x hx => hws x (by simp [hx]))

theorem skip_isspace_decomp (s : Str) :
    ∃ ws : Str, (∀ c ∈ ws, isspace c = true) ∧ s = ws ++ skip_isspace s := by
  induction s with
  | nil => exact ⟨[], by simp, rfl⟩
  | cons c rest ih =>
    by_cases hc : isspace c = true
    · obtain ⟨ws, h1, h2⟩ := ih
      refine ⟨c :: ws, ?_, ?_⟩
      · intro x hx
        rcases List.mem_cons.1 hx with rfl | hx
        · exact hc
        · exact h1 x hx
      · simp only [skip_isspace, hc, if_true, List.cons_append]
        rw [← h2]
    · exact ⟨[], by simp, by simp [skip_isspace, hc]⟩

theorem digit_char (d : Nat) (h : d < 10) :
    is_digit (Char.ofNat (48 + d)) = true ∧ (Char.ofNat (48 + d)).toNat - 48 = d ∧
    isspace (Char.ofNat (48 + d)) = false ∧ Char.ofNat (48 + d) ≠ '-' ∧
    Char.ofNat (48 + d) ≠ '+' := by
  interval_cases d <;> decide

theorem char_of_digit (c : Char) (h : is_digit c = true) :
    c.toNat - 48 < 10 ∧ Char.ofNat (48 + (c.toNat - 48)) = c := by
  simp only [is_digit, Bool.and_eq_true, decide_eq_true_eq] at h
  refine ⟨by omega, ?_⟩
  have : 48 + (c.toNat - 48) = c.toNat := by omega
  rw [this, Char.ofNat_toNat]

theorem strtol_digits_text (ds : List Nat) (hd : ∀ d ∈ ds, d < 10) (acc : Nat) :
    strtol_digits (digits_text ds) acc = (ds.foldl (fun a d => a * 10 + d) acc, []) := by
  induction ds generalizing acc with
  | nil => rfl
  | cons d rest ih =>
    have hdc := digit_char d (hd d (by simp))
    simp only [digits_text, List.map_cons, strtol_digits, hdc.1, if_true, hdc.2.1,
      List.foldl_cons]
    exact ih (fun x hx => hd x (by simp [hx])) _

theorem foldl_digits (ds : List Nat) (acc : Nat) :
    ds.foldl (fun a d => a * 10 + d) acc = acc * 10 ^ ds.length + Nat.ofDigits 10 ds.reverse := by
  induction ds generalizing acc with
  | nil => simp
  | cons d rest ih =>
    rw [List.foldl_cons, ih, List.reverse_cons, Nat.ofDigits_append, Nat.ofDigits_singleton]
    simp only [List.length_reverse, List.length_cons]
    ring

theorem strtol_digits_all (s : Str) (acc v : Nat) (h : strtol_digits s acc = (v, [])) :
    ∃ ds : List Nat, (∀ d ∈ ds, d < 10) ∧ s = digits_text ds := by
  induction s generalizing acc with
  | nil => exact ⟨[], by simp, rfl⟩
  | cons c rest ih =>
    unfold strtol_digits at h
    by_cases hc : is_digit c = true
    · simp only [hc, if_true] at h
      obtain ⟨ds, h1, h2⟩ := ih _ h
      have hcd := char_of_digit c hc
      refine ⟨(c.toNat - 48) :: ds, ?_, ?_⟩
      · intro x hx
        rcases List.mem_cons.1 hx with rfl | hx
        · exact hcd.1
        · exact h1 x hx
      · simp only [digits_text, List.map_cons, hcd.2]
        rw [h2]
        rfl
    · simp [hc] at h

/-- `strtol` on a string whose first non-space character is a digit. -/
theorem strtol_unsigned (nptr : Str) (c : Char) (t : Str) (hs : skip_isspace nptr = c :: t)
    (hc : is_digit c = true) :
    strtol nptr = (max LONG_MIN (min LONG_MAX ((strtol_digits (c :: t) 0).1 : Int)),
      (strtol_digits (c :: t) 0).2) := by
  have h1 : c ≠ '-' := by
    intro e; rw [e] at hc; exact absurd hc (by decide)
  have h2 : c ≠ '+' := by
    intro e; rw [e] at hc; exact absurd hc (by decide)
  simp only [strtol, hs, List.head?_cons, Option.some.injEq, h1, h2, or_self, if_false, hc,
    if_true, decide_False, Bool.false_eq_true]

/-- `strtol` on a string whose first non-space character is `+`, followed
by a digit. -/
theorem strtol_plus (nptr : Str) (c : Char) (t : Str) (hs : skip_isspace nptr = '+' :: c :: t)
    (hc : is_digit c = true) :
    strtol nptr = (max LONG_MIN (min LONG_MAX ((strtol_digits (c :: t) 0).1 : Int)),
      (strtol_digits (c :: t) 0).2) := by
  have h1 : ('+' : Char) ≠ '-' := by decide
  simp only [strtol, hs, List.head?_cons, Option.some.injEq, h1, or_true, if_true,
    List.drop_succ_cons, List.drop_zero, hc, decide_False, Bool.false_eq_true, if_false]

/-- `strtol` on a string whose first non-space character is `-`, followed
by a digit. -/
theorem strtol_minus (nptr : Str) (c : Char) (t : Str) (hs : skip_isspace nptr = '-' :: c :: t)
    (hc : is_digit c = true) :
    strtol nptr = (max LONG_MIN (min LONG_MAX (-((strtol_digits (c :: t) 0).1 : Int))),
      (strtol_digits (c :: t) 0).2) := by
  simp only [strtol, hs, List.head?_cons, true_or, if_true,
    List.drop_succ_cons, List.drop_zero, hc, decide_True]

/-- `strtol` reads a numeral in full and returns its value, clamped to the
range of `long`. -/
theorem strtol_numeral (arg : Str) (n : Int) (h : IsNumeral arg n) :
    strtol arg = (max LONG_MIN (min LONG_MAX n), []) := by
  obtain ⟨ws, sg, ds, hws, hne, hd, rfl, rfl⟩ := h
  cases ds with
  | nil => exact absurd rfl hne
  | cons d rest =>
    have hdc := digit_char d (hd d (by simp))
    have hdig := strtol_digits_text (d :: rest) hd 0
    have hval : (d :: rest).foldl (fun a d => a * 10 + d) 0 =
        Nat.ofDigits 10 (d :: rest).reverse := by
      rw [foldl_digits]; simp
    rw [hval] at hdig
    have hhead : digits_text (d :: rest) = Char.ofNat (48 + d) :: digits_text rest := rfl
    rw [hhead] at hdig
    have hskip : skip_isspace (ws ++ (sg.text ++ digits_text (d :: rest))) =
        sg.text ++ digits_text (d :: rest) := by
      rw [skip_isspace_append ws _ hws, hhead]
      cases sg
      · simp [Sign.text, skip_isspace, hdc.2.2.1]
      · have hsp : isspace '+' = false := by decide
        simp [Sign.text, skip_isspace, hsp]
      · have hsp : isspace '-' = false := by decide
        simp [Sign.text, skip_isspace, hsp]
    rw [hhead] at hskip
    cases sg with
    | absent =>
      have key := strtol_unsigned _ _ _ hskip hdc.1
      rw [hdig] at key
      exact key
    | plus =>
      have key := strtol_plus _ _ _ hskip hdc.1
      rw [hdig] at key
      exact key
    | minus =>
      have key := strtol_minus _ _ _ hskip hdc.1
      rw [hdig] at key
      exact key

/-- When `strtol` reads a string in full and finds a digit in it, the string
is a numeral. -/
theorem numeral_of_strtol (arg : Str) (hend : (strtol arg).2 = []) (hpos : 0 < (strtol arg).1) :
    ∃ n, IsNumeral arg n := by
  obtain ⟨ws, hws, hdec⟩ := skip_isspace_decomp arg
  unfold strtol at hend hpos
  simp only at hend hpos
  generalize hs1 : (if (skip_isspace arg).head? = some '-' ∨ (skip_isspace arg).head? = some '+'
      then (skip_isspace arg).drop 1 else skip_isspace arg) = s1 at hend hpos
  cases s1 with
  | nil => simp at hpos
  | cons c t =>
    simp only at hend hpos
    by_cases hc : is_digit c = true
    · simp only [hc, if_true] at hend
      obtain ⟨ds, hd, hds⟩ := strtol_digits_all (c :: t) 0 _
        (Prod.ext rfl hend : strtol_digits (c :: t) 0 = ((strtol_digits (c :: t) 0).1, []))
      have hne : ds ≠ [] := by
        intro e
        rw [e] at hds
        simp [digits_text] at hds
      by_cases hsign : (skip_isspace arg).head? = some '-' ∨ (skip_isspace arg).head? = some '+'
      · simp only [hsign, if_true] at hs1
        cases hsk : skip_isspace arg with
        | nil => rw [hsk] at hs1; simp at hs1
        | cons x rest =>
          rw [hsk] at hs1 hsign hdec
          simp only [List.drop_succ_cons, List.drop_zero] at hs1
          simp only [List.head?_cons, Option.some.injEq] at hsign
          rcases hsign with rfl | rfl
          · exact ⟨_, ws, Sign.minus, ds, hws, hne, hd, by rw [hdec, hs1, hds]; rfl, rfl⟩
          · exact ⟨_, ws, Sign.plus, ds, hws, hne, hd, by rw [hdec, hs1, hds]; rfl, rfl⟩
      · simp only [hsign, if_false] at hs1
        exact ⟨_, ws, Sign.absent, ds, hws, hne, hd, by rw [hdec, hs1, hds]; rfl, rfl⟩
    · simp [hc] at hpos

/-! ### The `history` builtin -/

theorem handle_history_arg (os : OS) (st : Shell) (arg : Str) :
    handle_builtin os st ["history".toList, arg] =
      if (strtol arg).2 ≠ [] ∨ (strtol arg).1 ≤ 0 ∨ (strtol arg).1 > (st.history.size : Int) then
        (wsh_warn Msg.HISTORY_INVALID_ARG st, Handled.returned true)
      else
        ({ emit (Event.print (da_get st.history ((strtol arg).1 - 1).toNat)) st with
             rc := EXIT_SUCCESS }, Handled.returned true) := by
  have e1 : ("history".toList = "cd".toList) = False := by decide
  have e2 : ("history".toList = "path".toList) = False := by decide
  have e3 : ("history".toList = "alias".toList) = False := by decide
  have e4 : ("history".toList = "unalias".toList) = False := by decide
  have e5 : ("history".toList = "which".toList) = False := by decide
  unfold handle_builtin
  simp only [List.getD_cons_zero, e1, e2, e3, e4, e5, if_false, if_true, List.length_cons,
    List.length_nil, List.getD_cons_succ, Nat.zero_add, Nat.reduceAdd, gt_iff_lt,
    Nat.lt_irrefl, OfNat.ofNat_ne_one]

theorem handle_history_all (os : OS) (st : Shell) :
    handle_builtin os st ["history".toList] =
      ({ history_print_all st with rc := EXIT_SUCCESS }, Handled.returned true) := by
  have e1 : ("history".toList = "cd".toList) = False := by decide
  have e2 : ("history".toList = "path".toList) = False := by decide
  have e3 : ("history".toList = "alias".toList) = False := by decide
  have e4 : ("history".toList = "unalias".toList) = False := by decide
  have e5 : ("history".toList = "which".toList) = False := by decide
  unfold handle_builtin
  simp only [List.getD_cons_zero, e1, e2, e3, e4, e5, if_false, if_true, List.length_cons,
    List.length_nil, Nat.zero_add, gt_iff_lt, Nat.reduceLT]

theorem history_error_of (os : OS) (st : Shell) (arg : Str)
    (h : (strtol arg).2 ≠ [] ∨ (strtol arg).1 ≤ 0 ∨ (strtol arg).1 > (st.history.size : Int)) :
    (handle_builtin os st ["history".toList, arg]).1.trace =
      st.trace ++ [Event.warn Msg.HISTORY_INVALID_ARG] ∧
    (handle_builtin os st ["history".toList, arg]).1.rc = EXIT_FAILURE := by
  rw [handle_history_arg, if_pos h]
  exact ⟨rfl, rfl⟩

/-- C9. For a history log holding the lines appended so far (fewer than
`LONG_MAX` of them) and an argument that is a decimal numeral of an integer
`n` (in the syntax `strtol` reads): if `1 ≤ n ≤ count`, `history n` prints
exactly the `n`-th appended line, which is also the `n`-th line that `history`
without argument prints, and sets `rc = EXIT_SUCCESS`; if `n ≤ 0` or
`n > count`, or if the argument is not a numeral, it prints nothing, reports
`HISTORY_INVALID_ARG` and leaves `rc = EXIT_FAILURE`. The log is never
modified. -/
theorem history_lookup (os : OS) (st : Shell) (cap : Nat) (lines : List Str)
    (hhist : st.history = lines.foldl da_put (da_create cap))
    (hsize : (lines.length : Int) < LONG_MAX) :
    (handle_builtin os st ["history".toList]).1.trace =
      st.trace ++ lines.map (fun l => Event.print (some l)) ∧
    (∀ arg n, IsNumeral arg n → 1 ≤ n → n ≤ (lines.length : Int) →
      ∃ l, lines.get? (n - 1).toNat = some l ∧
        (handle_builtin os st ["history".toList, arg]).1.trace =
          st.trace ++ [Event.print (some l)] ∧
        (handle_builtin os st ["history".toList, arg]).1.rc = EXIT_SUCCESS) ∧
    (∀ arg n, IsNumeral arg n → (n ≤ 0 ∨ n > (lines.length : Int)) →
      (handle_builtin os st ["history".toList, arg]).1.trace =
        st.trace ++ [Event.warn Msg.HISTORY_INVALID_ARG] ∧
      (handle_builtin os st ["history".toList, arg]).1.rc = EXIT_FAILURE) ∧
    (∀ arg, (¬ ∃ n, IsNumeral arg n) →
      (handle_builtin os st ["history".toList, arg]).1.trace =
        st.trace ++ [Event.warn Msg.HISTORY_INVALID_ARG] ∧
      (handle_builtin os st ["history".toList, arg]).1.rc = EXIT_FAILURE) ∧
    (∀ arg, (handle_builtin os st ["history".toList, arg]).1.history = st.history ∧
      (handle_builtin os st ["history".toList, arg]).2 = Handled.returned true) ∧
    (handle_builtin os st ["history".toList]).1.history = st.history := by
  have hholds : da_holds st.history lines := by
    rw [hhist]; exact da_holds_built cap lines
  have hsz : st.history.size = lines.length := hholds.1
  have hLMAX : LONG_MAX = 9223372036854775807 := by norm_num [LONG_MAX]
  have hLMIN : LONG_MIN = -9223372036854775808 := by norm_num [LONG_MIN]
  rw [hLMAX] at hsize
  refine ⟨?_, ?_, ?_, ?_, ?_, ?_⟩
  · rw [handle_history_all]
    simp only [history_print_all, history_print_fold, emit_all]
    rw [hsz]
    have : (fun i => Event.print (da_get st.history i)) =
        (fun i => Event.print (lines.get? i)) := by
      funext i
      rw [da_get_of_holds st.history lines hholds]
    rw [this, range_map_get Event.print lines]
  · intro arg n hnum h1 h2
    have hst := strtol_numeral arg n hnum
    have hclamp : max LONG_MIN (min LONG_MAX n) = n := by
      rw [hLMAX, hLMIN]; omega
    rw [hclamp] at hst
    have hlt : (n - 1).toNat < lines.length := by omega
    refine ⟨lines[(n - 1).toNat], by simp [hlt], ?_⟩
    have hcond : ¬ ((strtol arg).2 ≠ [] ∨ (strtol arg).1 ≤ 0 ∨
        (strtol arg).1 > (st.history.size : Int)) := by
      rw [hst, hsz]
      simp
      omega
    rw [handle_history_arg, if_neg hcond, hst]
    simp only [emit, da_get_of_holds st.history lines hholds]
    simp [hlt]
  · intro arg n hnum hn
    have hst := strtol_numeral arg n hnum
    apply history_error_of
    rw [hst, hsz]
    right
    simp only
    rw [hLMAX, hLMIN]
    omega
  · intro arg hnot
    apply history_error_of
    by_contra hcon
    push_neg at hcon
    exact hnot (numeral_of_strtol arg hcon.1 hcon.2.1)
  · intro arg
    rw [handle_history_arg]
    split_ifs <;> exact ⟨rfl, rfl⟩
  · rw [handle_history_all]
    simp [history_print_all, history_print_fold, emit_all]

theorem two_is_numeral : IsNumeral "2".toList 2 :=
  ⟨[], Sign.absent, [2], by simp, by simp, by simp, by decide, by decide⟩

/-- C9 on a log of three lines: `history 2` prints the second line, `pwd`. -/
theorem history_lookup_witness :
    demo_history_shell.history =
      ["ls".toList, "pwd".toList, "cd /tmp".toList].foldl da_put (da_create 16) ∧
    ((["ls".toList, "pwd".toList, "cd /tmp".toList].length : Nat) : Int) < LONG_MAX ∧
    IsNumeral "2".toList 2 ∧ (1 : Int) ≤ 2 ∧
    (2 : Int) ≤ ((["ls".toList, "pwd".toList, "cd /tmp".toList].length : Nat) : Int) ∧
    (∃ l, ["ls".toList, "pwd".toList, "cd /tmp".toList].get? ((2 : Int) - 1).toNat = some l ∧
      (handle_builtin (demo_os parent_fork all_exit_zero) demo_history_shell
          ["history".toList, "2".toList]).1.trace =
        demo_history_shell.trace ++ [Event.print (some l)] ∧
      (handle_builtin (demo_os parent_fork all_exit_zero) demo_history_shell
          ["history".toList, "2".toList]).1.rc = EXIT_SUCCESS) ∧
    (handle_builtin (demo_os parent_fork all_exit_zero) demo_history_shell
        ["history".toList, "2".toList]).1.trace = [Event.print (some "pwd".toList)] :=
  ⟨rfl, by simp [LONG_MAX], two_is_numeral, by decide, by decide,
   (history_lookup (demo_os parent_fork all_exit_zero) demo_history_shell 16
      ["ls".toList, "pwd".toList, "cd /tmp".toList] rfl (by simp [LONG_MAX])).2.1
      "2".toList 2 two_is_numeral (by decide) (by decide),
   by decide⟩

/-! ## The path scan of `find_executable` never runs out of fuel -/

theorem dropWhile_head_false {α : Type} (p : α → Bool) (l : List α) (c : α) (t : List α)
    (h : l.dropWhile p = c :: t) : p c = false := by
  induction l with
  | nil => simp at h
  | cons a rest ih =>
    by_cases ha : p a = true
    · rw [List.dropWhile_cons_of_pos ha] at h
      exact ih h
    · rw [List.dropWhile_cons_of_neg ha] at h
      injection h with h1 h2
      rw [← h1]
      simpa using ha

theorem strtok_r_length (d : Char) (s tok rest : Str) (h : strtok_r d s = some (tok, rest)) :
    rest.length < s.length := by
  unfold strtok_r at h
  simp only at h
  split_ifs at h with hnil
  cases hs1 : s.dropWhile (fun c => c == d) with
  | nil => exact absurd hs1 hnil
  | cons c t =>
    rw [hs1] at h
    have hc : (c == d) = false := dropWhile_head_false _ s c t hs1
    have hc2 : (c != d) = true := by simp [bne, hc]
    have hdw : List.dropWhile (fun c => c != d) (c :: t) =
        List.dropWhile (fun c => c != d) t := by
      simp [List.dropWhile_cons, hc2]
    rw [hdw] at h
    simp only [Option.some.injEq, Prod.mk.injEq] at h
    have h1 : (t.dropWhile (fun c => c != d)).length ≤ t.length :=
      (List.dropWhile_suffix _).length_le
    have h2 : (s.dropWhile (fun c => c == d)).length ≤ s.length :=
      (List.dropWhile_suffix _).length_le
    rw [hs1] at h2
    rw [← h.2]
    simp only [List.length_drop, List.length_cons] at h2 ⊢
    omega

/-- The path scan never uses up a fuel larger than the length of what is
left of the path: `find_executable` returns `NULL` only when the scan ends
without a match. -/
theorem find_loop_fuel (os : OS) (cmd : Str) (fuel : Nat) (s : Str) (h : s.length < fuel) :
    find_loop os cmd fuel s ≠ none := by
  induction fuel generalizing s with
  | zero => omega
  | succ n ih =>
    unfold find_loop
    cases ht : strtok_r ':' s with
    | none => simp
    | some pr =>
      obtain ⟨dir, rest⟩ := pr
      have hl := strtok_r_length _ _ _ _ ht
      have hr := ih rest (by omega)
      simp only
      split_ifs
      · simp
      · exact hr
      · exact hr

/-! ## Which names `handle_builtin` handles (C17) -/

theorem mem_builtins (c : Str) :
    c ∈ builtins ↔ c = "exit".toList ∨ c = "cd".toList ∨ c = "path".toList ∨
      c = "alias".toList ∨ c = "unalias".toList ∨ c = "which".toList ∨ c = "history".toList := by
  simp [builtins]

/-- A first argument that is none of the seven names falls through every
branch: `handle_builtin` returns 0 and touches nothing. -/
theorem handle_builtin_other (os : OS) (st : Shell) (argv : List Str)
    (h : argv0 argv ∉ builtins) : handle_builtin os st argv = (st, Handled.returned false) := by
  rw [mem_builtins] at h
  simp only [not_or] at h
  obtain ⟨h1, h2, h3, h4, h5, h6, h7⟩ := h
  unfold argv0 at h1 h2 h3 h4 h5 h6 h7
  unfold handle_builtin
  simp only [h1, h2, h3, h4, h5, h6, h7, if_false]

/-- The seven names are pairwise different; the facts that the case analysis
of `handle_builtin` needs. -/
theorem builtin_names_distinct :
    ("path".toList = "cd".toList) = False ∧
    ("alias".toList = "cd".toList) = False ∧
    ("alias".toList = "path".toList) = False ∧
    ("unalias".toList = "cd".toList) = False ∧
    ("unalias".toList = "path".toList) = False ∧
    ("unalias".toList = "alias".toList) = False ∧
    ("which".toList = "cd".toList) = False ∧
    ("which".toList = "path".toList) = False ∧
    ("which".toList = "alias".toList) = False ∧
    ("which".toList = "unalias".toList) = False ∧
    ("history".toList = "cd".toList) = False ∧
    ("history".toList = "path".toList) = False ∧
    ("history".toList = "alias".toList) = False ∧
    ("history".toList = "unalias".toList) = False ∧
    ("history".toList = "which".toList) = False ∧
    ("exit".toList = "cd".toList) = False ∧
    ("exit".toList = "path".toList) = False ∧
    ("exit".toList = "alias".toList) = False ∧
    ("exit".toList = "unalias".toList) = False ∧
    ("exit".toList = "which".toList) = False ∧
    ("exit".toList = "history".toList) = False := by
  decide

/-- A first argument that is one of the seven names is handled: the call
returns 1, or, for `exit`, the process exits with the current `rc`. -/
theorem handle_builtin_builtin (os : OS) (st : Shell) (argv : List Str)
    (h : argv0 argv ∈ builtins) :
    (handle_builtin os st argv).2 = Handled.returned true ∨
    (argv0 argv = "exit".toList ∧ (handle_builtin os st argv).2 = Handled.exited st.rc) := by
  obtain ⟨p1, a1, a2, u1, u2, u3, w1, w2, w3, w4, h1, h2, h3, h4, h5, x1, x2, x3, x4, x5, x6⟩ :=
    builtin_names_distinct
  rw [mem_builtins] at h
  unfold argv0 at h ⊢
  rcases h with c | c | c | c | c | c | c
  · right
    refine ⟨c, ?_⟩
    unfold handle_builtin
    simp only [c, x1, x2, x3, x4, x5, x6, if_false, if_true]
  · left
    unfold handle_builtin
    simp only [c, if_true]
    by_cases hgt : argv.length > 2
    · simp only [hgt, if_true]
    · simp only [hgt, if_false]
      generalize (if argv.length = 1 then st.HOME else some (argv.getD 1 [])) = dir
      cases dir with
      | none => rfl
      | some d =>
        simp only
        cases os.chdir_ok d <;> rfl
  · left
    unfold handle_builtin
    simp only [c, p1, if_true, if_false]
    by_cases hgt : argv.length > 2
    · simp only [hgt, if_true]
    · simp only [hgt, if_false]
      by_cases h1 : argv.length = 1
      · simp only [h1, if_true]
      · simp only [h1, if_false]
  · left
    unfold handle_builtin
    simp only [c, a1, a2, if_true, if_false]
    by_cases h1 : argv.length = 1
    · simp only [h1, if_true]
    · simp only [h1, if_false]
      by_cases h3 : argv.length ≥ 3 ∧ argv.getD 2 [] = "=".toList
      · simp only [h3, and_self, if_true]
      · simp only [h3, if_false]
  · left
    unfold handle_builtin
    simp only [c, u1, u2, u3, if_true, if_false]
    by_cases hne : argv.length ≠ 2
    · rw [if_pos hne]
    · rw [if_neg hne]
  · left
    unfold handle_builtin
    simp only [c, w1, w2, w3, w4, if_true, if_false]
    by_cases hne : argv.length ≠ 2
    · rw [if_pos hne]
    · rw [if_neg hne]
      cases hm_get st.alias_hm (argv.getD 1 []) with
      | some v => rfl
      | none =>
        simp only
        by_cases hb : is_builtin_name (argv.getD 1 []) = true
        · simp only [hb, if_true]
        · simp only [hb, if_false]
          cases find_executable os st (argv.getD 1 []) <;> rfl
  · left
    unfold handle_builtin
    simp only [c, h1, h2, h3, h4, h5, if_true, if_false]
    by_cases hgt : argv.length > 2
    · simp only [hgt, if_true]
    · simp only [hgt, if_false]
      by_cases h1 : argv.length = 1
      · simp only [h1, if_true]
      · simp only [h1, if_false]
        by_cases hc : (strtol (argv.getD 1 [])).2 ≠ [] ∨ (strtol (argv.getD 1 [])).1 ≤ 0 ∨
            (strtol (argv.getD 1 [])).1 > (st.history.size : Int)
        · simp only [hc, if_true]
        · simp only [hc, if_false]

theorem handle_builtin_exit (os : OS) (st : Shell) (argv : List Str)
    (h : argv0 argv = "exit".toList) :
    handle_builtin os st argv = (emit (Event.exit st.rc) st, Handled.exited st.rc) := by
  obtain ⟨-, -, -, -, -, -, -, -, -, -, -, -, -, -, -, x1, x2, x3, x4, x5, x6⟩ :=
    builtin_names_distinct
  unfold argv0 at h
  unfold handle_builtin
  simp only [h, x1, x2, x3, x4, x5, x6, if_false, if_true]

theorem handled_iff_builtin (os : OS) (st : Shell) (argv : List Str) :
    (handle_builtin os st argv).2 ≠ Handled.returned false ↔ argv0 argv ∈ builtins := by
  constructor
  · intro h
    by_contra hn
    rw [handle_builtin_other os st argv hn] at h
    exact h rfl
  · intro h
    rcases handle_builtin_builtin os st argv h with h1 | ⟨-, h1⟩ <;> rw [h1] <;> simp

/-- Pre-validation does not resolve a segment whose first token is one of the
seven names. -/
theorem validate_segment_builtin (os : OS) (acc : Shell × Bool) (seg : Str) (c : Str)
    (hc : (parseline_no_subst os.MAX_ARGS acc.1 seg).2.args.head? = some c)
    (hb : c ∈ builtins) :
    validate_segment os acc seg = ((parseline_no_subst os.MAX_ARGS acc.1 seg).1, acc.2) := by
  have hb2 : is_builtin_name c = true := (is_builtin_name_iff c).2 hb
  rcases parseline_cases os.MAX_ARGS acc.1 seg with ⟨args, h⟩ | h
  · rw [h] at hc ⊢
    simp only [parsed_args_shape] at hc
    cases args with
    | nil => simp at hc
    | cons a rest =>
      simp at hc
      subst hc
      unfold validate_segment
      simp only [h, parsed_args_shape]
      simp [hb2]
  · rw [h] at hc
    simp [Parsed.args] at hc

/-- C17. For an argument vector with at least one argument: if `argv[0]` is
one of the seven builtin names, `handle_builtin` never answers "not a
builtin": it returns 1, or for `exit` ends the process with the current `rc`,
whatever the other arguments are; if `argv[0]` is any other string it returns
0 and leaves the whole state (`rc`, alias table, history, `PATH`) as it was.
The names it handles are exactly the seven of `builtins`, the list that
`which` reports as builtin and that pre-validation exempts from path
resolution. -/
theorem builtin_dispatch (os : OS) (st : Shell) (argv : List Str) (hne : argv ≠ []) :
    (argv0 argv ∈ builtins →
      (handle_builtin os st argv).2 = Handled.returned true ∨
      (argv0 argv = "exit".toList ∧
        handle_builtin os st argv = (emit (Event.exit st.rc) st, Handled.exited st.rc))) ∧
    (argv0 argv ∉ builtins → handle_builtin os st argv = (st, Handled.returned false)) ∧
    ((handle_builtin os st argv).2 ≠ Handled.returned false ↔ argv0 argv ∈ builtins) ∧
    (∀ c, hm_get st.alias_hm c = none →
      (which_report os st c = Event.which_builtin c ↔ c ∈ builtins)) ∧
    (∀ (acc : Shell × Bool) (seg c : Str),
      (parseline_no_subst os.MAX_ARGS acc.1 seg).2.args.head? = some c → c ∈ builtins →
      validate_segment os acc seg = ((parseline_no_subst os.MAX_ARGS acc.1 seg).1, acc.2)) := by
  have _ := hne
  refine ⟨?_, handle_builtin_other os st argv, handled_iff_builtin os st argv, ?_,
    fun acc seg c => validate_segment_builtin os acc seg c⟩
  · intro h
    rcases handle_builtin_builtin os st argv h with h1 | ⟨h1, -⟩
    · exact Or.inl h1
    · exact Or.inr ⟨h1, handle_builtin_exit os st argv h1⟩
  · intro c hc
    constructor
    · intro h
      by_contra hn
      simp only [which_report, hc, hn, if_false] at h
      cases hf : find_executable os st c <;> simp [hf] at h
    · intro h
      simp [which_report, hc, h]

/-- C17 on `cd a b c` (a builtin name with too many arguments, still
handled) and on `ls -la` (not handled, state untouched). -/
theorem builtin_dispatch_witness :
    ["cd".toList, "a".toList, "b".toList, "c".toList] ≠ [] ∧
    argv0 ["cd".toList, "a".toList, "b".toList, "c".toList] ∈ builtins ∧
    (handle_builtin (demo_os parent_fork all_exit_zero) (main_init none)
      ["cd".toList, "a".toList, "b".toList, "c".toList]).2 = Handled.returned true ∧
    argv0 ["ls".toList, "-la".toList] ∉ builtins ∧
    handle_builtin (demo_os parent_fork all_exit_zero) (main_init none)
      ["ls".toList, "-la".toList] = (main_init none, Handled.returned false) :=
  ⟨by decide, by decide, by decide, by decide,
   (builtin_dispatch (demo_os parent_fork all_exit_zero) (main_init none)
      ["ls".toList, "-la".toList] (by decide)).2.1 (by decide)⟩

/-! ## What `execute_line` leaves of the globals (C18) -/

theorem same_globals_refl (st : Shell) : SameGlobals st st := ⟨rfl, rfl, rfl, rfl⟩

theorem same_globals_trans {a b c : Shell} (h1 : SameGlobals a b) (h2 : SameGlobals b c) :
    SameGlobals a c :=
  ⟨h2.1.trans h1.1, h2.2.1.trans h1.2.1, h2.2.2.1.trans h1.2.2.1, h2.2.2.2.trans h1.2.2.2⟩

theorem same_globals_of_only_warned {a b : Shell} (h : OnlyWarned a b) : SameGlobals a b :=
  ⟨h.1, h.2.1, h.2.2.1, h.2.2.2.1⟩

theorem same_globals_emit (e : Event) (st : Shell) : SameGlobals st (emit e st) :=
  ⟨rfl, rfl, rfl, rfl⟩

/-- `execute_single_command` never returns: the process exits or its image is
replaced. -/
theorem execute_single_command_ends (os : OS) (st : Shell) (cmd : Str) :
    (execute_single_command os st cmd).2 ≠ LineEnd.returned := by
  unfold execute_single_command
  simp only
  split_ifs
  · simp
  · split
    · simp
    · simp
    · split
      · simp
      · split_ifs <;> simp

theorem wait_step_same (os : OS) (pids : List Int) (st : Shell) (i : Nat) :
    SameGlobals st (wait_step os pids st i) := by
  unfold wait_step
  simp only
  cases os.waitpid ((pids.get? i).getD (os.garbage_pid i)) <;> exact ⟨rfl, rfl, rfl, rfl⟩

theorem wait_fold_same (os : OS) (pids : List Int) (is : List Nat) (st : Shell) :
    SameGlobals st (is.foldl (wait_step os pids) st) := by
  induction is generalizing st with
  | nil => exact same_globals_refl st
  | cons i rest ih =>
    rw [List.foldl_cons]
    exact same_globals_trans (wait_step_same os pids st i) (ih _)

/-- However the spawn loop is left, either the process followed is a child,
which does not return, or the globals are untouched. -/
theorem spawn_loop_same (os : OS) (N : Nat) (rest : List Str) (i : Nat) (st : Shell)
    (pids : List Int) :
    (∀ e, (spawn_loop os N rest i st pids).2.2 = SpawnEnd.child e → e ≠ LineEnd.returned) ∧
    ((∀ e, (spawn_loop os N rest i st pids).2.2 ≠ SpawnEnd.child e) →
      SameGlobals st (spawn_loop os N rest i st pids).1) := by
  induction rest generalizing i st pids with
  | nil =>
    unfold spawn_loop
    exact ⟨by simp, fun _ => same_globals_refl st⟩
  | cons seg segs ih =>
    have hst1 : SameGlobals st (if i < N - 1 then emit (Event.pipe i true) st else st) := by
      split_ifs <;> exact ⟨rfl, rfl, rfl, rfl⟩
    unfold spawn_loop
    simp only
    generalize (if i < N - 1 then emit (Event.pipe i true) st else st) = st1 at hst1 ⊢
    by_cases h1 : i < N - 1 ∧ os.pipe_ok i = false
    · rw [if_pos h1]
      exact ⟨by simp, fun _ => ⟨rfl, rfl, rfl, rfl⟩⟩
    · rw [if_neg h1]
      by_cases h2 : os.fork i = -1
      · rw [if_pos h2]
        exact ⟨by simp, fun _ => same_globals_trans hst1 ⟨rfl, rfl, rfl, rfl⟩⟩
      · rw [if_neg h2]
        by_cases h3 : os.fork i = 0
        · rw [if_pos h3]
          refine ⟨?_, fun h => absurd rfl (h _)⟩
          intro e he
          simp only [SpawnEnd.child.injEq] at he
          rw [← he]
          exact execute_single_command_ends _ _ _
        · rw [if_neg h3]
          have := ih (i + 1) (emit (Event.fork i seg (os.fork i)) st1) (pids ++ [os.fork i])
          exact ⟨this.1, fun h => same_globals_trans (same_globals_trans hst1 ⟨rfl, rfl, rfl, rfl⟩) (this.2 h)⟩

theorem run_pipeline_same (os : OS) (st : Shell) (segs : List Str)
    (hret : (run_pipeline os st segs).2 = LineEnd.returned) :
    SameGlobals st (run_pipeline os st segs).1 := by
  have hv : SameGlobals st (validate os st segs).1 :=
    same_globals_of_only_warned (validate_fold os st segs (st, true) (OnlyWarned.refl st)).1
  have hs := spawn_loop_same os segs.length segs 0 (validate os st segs).1 []
  unfold run_pipeline at hret ⊢
  simp only at hret ⊢
  split_ifs at hret ⊢ with h1
  · exact hv
  · rcases hsp : spawn_loop os segs.length segs 0 (validate os st segs).1 [] with ⟨st1, pids, e⟩
    rw [hsp] at hret hs
    cases e with
    | to_wait =>
      simp only at hs ⊢
      exact same_globals_trans (same_globals_trans hv (hs.2 (by simp)))
        (wait_fold_same os pids _ st1)
    | returned =>
      simp only at hs ⊢
      exact same_globals_trans hv (hs.2 (by simp))
    | child e =>
      simp only at hret hs
      exact absurd hret (hs.1 e rfl)

theorem run_single_same (os : OS) (st : Shell) (seg : Str)
    (hc : ∀ c, (parseline_no_subst os.MAX_ARGS st seg).2.args.head? = some c → c ∉ builtins)
    (hret : (run_single os st seg).2 = LineEnd.returned) :
    SameGlobals st (run_single os st seg).1 := by
  have hp : SameGlobals st (parseline_no_subst os.MAX_ARGS st seg).1 :=
    same_globals_of_only_warned (parseline_only_warned os.MAX_ARGS st seg)
  rcases parseline_cases os.MAX_ARGS st seg with ⟨args, h⟩ | h
  · rw [h] at hc hp
    simp only [parsed_args_shape] at hc
    unfold run_single at hret ⊢
    simp only [h, parsed_args_shape] at hret ⊢
    cases args with
    | nil => simpa using same_globals_refl st
    | cons a rest =>
      have ha : a ∉ builtins := hc a (by simp)
      have hex : a ≠ "exit".toList := by
        intro e
        exact ha (by rw [e]; decide)
      have hb : handle_builtin os st (a :: rest) = (st, Handled.returned false) :=
        handle_builtin_other os st (a :: rest) ha
      simp only [List.length_cons, Nat.zero_lt_succ, if_true, List.getD_cons_zero, hex,
        if_false, hb, gt_iff_lt] at hret ⊢
      split_ifs at hret ⊢ with h1 h2
      · exact ⟨rfl, rfl, rfl, rfl⟩
      · exact absurd hret (execute_single_command_ends _ _ _)
      · cases os.waitpid (os.fork 0) <;> exact ⟨rfl, rfl, rfl, rfl⟩
  · unfold run_single
    simp only [h]
    exact ⟨rfl, rfl, rfl, rfl⟩

/-- C18. For a line that `execute_line` splits into two or more segments, and
for a single-segment line whose first token is not one of the builtin names,
when `execute_line` returns (in the parent) the alias table, the history
log, `PATH` and `HOME` are what they were before the call; only `rc` (and the
record of events) may differ. A builtin that is a pipeline stage, or that is
reached through an alias, runs in a child and does not change them. -/
theorem execute_line_keeps_globals (os : OS) (st : Shell) (line : Str)
    (hline : 2 ≤ (split_pipe os.MAX_ARGS line).length ∨
      ∀ c, (parseline_no_subst os.MAX_ARGS st ((split_pipe os.MAX_ARGS line).getD 0 [])).2.args.head?
        = some c → c ∉ builtins)
    (hret : (execute_line os st line).2 = LineEnd.returned) :
    (execute_line os st line).1.alias_hm = st.alias_hm ∧
    (execute_line os st line).1.history = st.history ∧
    (execute_line os st line).1.PATH = st.PATH ∧
    (execute_line os st line).1.HOME = st.HOME := by
  suffices h : SameGlobals st (execute_line os st line).1 from h
  unfold execute_line at hret ⊢
  simp only at hret ⊢
  split_ifs at hret ⊢ with h0 h1 h2
  · exact same_globals_refl st
  · exact ⟨rfl, rfl, rfl, rfl⟩
  · rcases hline with h | h
    · omega
    · exact run_single_same os st _ h hret
  · exact run_pipeline_same os st _ hret

/-- C18 on the pipeline `alias a = b | cat` of the claim: the parent forks
two children and its alias table stays empty; and on the single command `a`
when `a` is an alias of `path /usr/bin`: the `path` builtin runs in the
child and the parent keeps its `PATH`. -/
theorem execute_line_keeps_globals_witness :
    2 ≤ (split_pipe (demo_os parent_fork all_exit_zero).MAX_ARGS
      "alias a = b | cat".toList).length ∧
    (execute_line (demo_os parent_fork all_exit_zero) (main_init none)
      "alias a = b | cat".toList).2 = LineEnd.returned ∧
    (execute_line (demo_os parent_fork all_exit_zero) (main_init none)
      "alias a = b | cat".toList).1.alias_hm = (main_init none).alias_hm ∧
    (execute_line (demo_os parent_fork all_exit_zero)
      { main_init none with alias_hm := [("a".toList, "path /usr/bin".toList)] }
      "a".toList).2 = LineEnd.returned ∧
    (execute_line (demo_os parent_fork all_exit_zero)
      { main_init none with alias_hm := [("a".toList, "path /usr/bin".toList)] }
      "a".toList).1.PATH = some "/bin".toList ∧
    (execute_single_command (demo_os parent_fork all_exit_zero)
      { main_init none with alias_hm := [("a".toList, "path /usr/bin".toList)] }
      "a".toList).1.PATH = some "/usr/bin".toList :=
  ⟨by decide, by decide,
   (execute_line_keeps_globals (demo_os parent_fork all_exit_zero) (main_init none)
      "alias a = b | cat".toList (Or.inl (by decide)) (by decide)).1,
   by decide,
   (execute_line_keeps_globals (demo_os parent_fork all_exit_zero)
      { main_init none with alias_hm := [("a".toList, "path /usr/bin".toList)] }
      "a".toList (Or.inr (by decide)) (by decide)).2.2.1,
   by decide⟩

/-! ## The dynamic array (C19) -/

/-- C19. For every initial capacity and every sequence of strings appended
with `da_put` to a fresh `da_create` array: the size is the number of strings
and is at most the capacity; `da_get i` is the `(i+1)`-th appended string for
every `i` below the size, so earlier entries survive every doubling of the
capacity; and `da_get i` is `NULL` for every `i` from the size on. -/
theorem da_put_get (cap : Nat) (lines : List Str) :
    (lines.foldl da_put (da_create cap)).size = lines.length ∧
    (lines.foldl da_put (da_create cap)).size ≤ (lines.foldl da_put (da_create cap)).capacity ∧
    (∀ i (hi : i < lines.length),
      da_get (lines.foldl da_put (da_create cap)) i = some (lines.get ⟨i, hi⟩)) ∧
    (∀ i, lines.length ≤ i → da_get (lines.foldl da_put (da_create cap)) i = none) := by
  have h := da_holds_built cap lines
  refine ⟨h.1, h.2.1, ?_, ?_⟩
  · intro i hi
    rw [da_get_of_holds _ _ h]
    simp [hi]
  · intro i hi
    rw [da_get_of_holds _ _ h]
    simp [hi]

/-- C19 on five strings appended to an array of initial capacity 1, which
doubles three times (capacity 8): the second string is still in cell 1, and
cell 5 is not found. -/
theorem da_put_get_witness :
    (1 : Nat) < ["a".toList, "b".toList, "c".toList, "d".toList, "e".toList].length ∧
    (["a".toList, "b".toList, "c".toList, "d".toList, "e".toList].foldl da_put
      (da_create 1)).capacity = 8 ∧
    da_get (["a".toList, "b".toList, "c".toList, "d".toList, "e".toList].foldl da_put
      (da_create 1)) 1 = some "b".toList ∧
    da_get (["a".toList, "b".toList, "c".toList, "d".toList, "e".toList].foldl da_put
      (da_create 1)) 5 = none :=
  ⟨by decide, by decide,
   (da_put_get 1 ["a".toList, "b".toList, "c".toList, "d".toList, "e".toList]).2.2.1 1
     (by decide),
   (da_put_get 1 ["a".toList, "b".toList, "c".toList, "d".toList, "e".toList]).2.2.2 5
     (by decide)⟩

/-! ## The executable resolver (C13) -/

theorem strtok_r_skip (d : Char) (s : Str) : strtok_r d (d :: s) = strtok_r d s := by
  simp [strtok_r]

theorem strtok_r_nil (d : Char) : strtok_r d [] = none := by
  simp [strtok_r]

theorem takeWhile_ne_append (d : Char) (tok rest : Str) (h : d ∉ tok) :
    (tok ++ d :: rest).takeWhile (fun c => c != d) = tok ∧
    (tok ++ d :: rest).dropWhile (fun c => c != d) = d :: rest := by
  induction tok with
  | nil => simp
  | cons x xs ih =>
    have hx : x ≠ d := fun e => h (by simp [e])
    have hxs : d ∉ xs := fun e => h (by simp [e])
    have := ih hxs
    simp [List.takeWhile_cons, List.dropWhile_cons, hx, this.1, this.2]

theorem takeWhile_ne_all (d : Char) (tok : Str) (h : d ∉ tok) :
    tok.takeWhile (fun c => c != d) = tok ∧ tok.dropWhile (fun c => c != d) = [] := by
  induction tok with
  | nil => simp
  | cons x xs ih =>
    have hx : x ≠ d := fun e => h (by simp [e])
    have hxs : d ∉ xs := fun e => h (by simp [e])
    have := ih hxs
    simp [List.takeWhile_cons, List.dropWhile_cons, hx, this.1, this.2]

/-- A non-empty token without delimiter, followed by a delimiter, is what
`strtok_r` returns, and the saved pointer is what follows that delimiter. -/
theorem strtok_r_token (d : Char) (tok rest : Str) (hne : tok ≠ []) (h : d ∉ tok) :
    strtok_r d (tok ++ d :: rest) = some (tok, rest) := by
  cases tok with
  | nil => exact absurd rfl hne
  | cons x xs =>
    have hx : x ≠ d := fun e => h (by simp [e])
    have hdw : List.dropWhile (fun c => c == d) ((x :: xs) ++ d :: rest) =
        (x :: xs) ++ d :: rest := by
      simp [List.dropWhile_cons, hx]
    have htd := takeWhile_ne_append d (x :: xs) rest h
    unfold strtok_r
    simp only [hdw, htd.1, htd.2]
    simp

/-- A non-empty token without delimiter at the end of the string is the last
token. -/
theorem strtok_r_last (d : Char) (tok : Str) (hne : tok ≠ []) (h : d ∉ tok) :
    strtok_r d tok = some (tok, []) := by
  cases tok with
  | nil => exact absurd rfl hne
  | cons x xs =>
    have hx : x ≠ d := fun e => h (by simp [e])
    have hdw : List.dropWhile (fun c => c == d) (x :: xs) = x :: xs := by
      simp [List.dropWhile_cons, hx]
    have htd := takeWhile_ne_all d (x :: xs) h
    unfold strtok_r
    simp only [hdw, htd.1, htd.2]
    simp

theorem find_loop_nil (os : OS) (cmd : Str) (fuel : Nat) :
    find_loop os cmd (fuel + 1) [] = some none := by
  simp [find_loop, strtok_r_nil]

theorem find_loop_skip (os : OS) (cmd : Str) (fuel : Nat) (s : Str) :
    find_loop os cmd (fuel + 1) (':' :: s) = find_loop os cmd (fuel + 1) s := by
  simp only [find_loop, strtok_r_skip]

theorem intercalate_cons_cons (sep : Str) (x y : Str) (rest : List Str) :
    List.intercalate sep (x :: y :: rest) = x ++ sep ++ List.intercalate sep (y :: rest) := by
  simp [List.intercalate, List.intersperse]

/-- The scan of a path made of the given components tries the candidates in
order and returns the first one that is executable. -/
theorem find_loop_components (os : OS) (cmd : Str) (components : List Str)
    (hcolon : ∀ d ∈ components, ':' ∉ d)
    (hlen : ∀ d ∈ components, d ≠ [] → (d ++ '/' :: cmd).length < os.MAX_LINE)
    (fuel : Nat) (hfuel : (List.intercalate [':'] components).length < fuel) :
    find_loop os cmd fuel (List.intercalate [':'] components) =
      some ((path_candidates cmd components).find? os.access_x) := by
  induction components generalizing fuel with
  | nil =>
    obtain ⟨k, rfl⟩ : ∃ k, fuel = k + 1 := ⟨fuel - 1, by omega⟩
    simp [List.intercalate, find_loop_nil, path_candidates]
  | cons d rest ih =>
    obtain ⟨k, rfl⟩ : ∃ k, fuel = k + 1 := ⟨fuel - 1, by omega⟩
    have hd : ':' ∉ d := hcolon d (by simp)
    have hrest : ∀ x ∈ rest, ':' ∉ x := fun x hx => hcolon x (by simp [hx])
    have hlrest : ∀ x ∈ rest, x ≠ [] → (x ++ '/' :: cmd).length < os.MAX_LINE :=
      fun x hx => hlen x (by simp [hx])
    by_cases hne : d = []
    · subst hne
      cases rest with
      | nil => simp [List.intercalate, find_loop_nil, path_candidates]
      | cons y r =>
        rw [intercalate_cons_cons] at hfuel ⊢
        simp only [List.nil_append, List.singleton_append] at hfuel ⊢
        rw [find_loop_skip, ih hrest hlrest (k + 1) (by simp at hfuel ⊢; omega)]
        simp [path_candidates]
    · have htake : (d ++ '/' :: cmd).take (os.MAX_LINE - 1) = d ++ '/' :: cmd := by
        apply List.take_of_length_le
        have := hlen d (by simp) hne
        omega
      have hpos : d.length > 0 := List.length_pos.2 hne
      cases rest with
      | nil =>
        have hs : List.intercalate [':'] [d] = d := by simp [List.intercalate]
        rw [hs] at hfuel ⊢
        obtain ⟨k2, rfl⟩ : ∃ k2, k = k2 + 1 := ⟨k - 1, by omega⟩
        unfold find_loop
        simp only [strtok_r_last ':' d hne hd, hpos, if_true, htake]
        by_cases hx : os.access_x (d ++ '/' :: cmd) = true
        · simp [hx, path_candidates, hne]
        · simp [hx, path_candidates, hne, find_loop_nil]
      | cons y r =>
        rw [intercalate_cons_cons] at hfuel ⊢
        have hs : d ++ [':'] ++ List.intercalate [':'] (y :: r) =
            d ++ ':' :: List.intercalate [':'] (y :: r) := by simp
        rw [hs] at hfuel ⊢
        unfold find_loop
        simp only [strtok_r_token ':' d _ hne hd, hpos, if_true, htake]
        by_cases hx : os.access_x (d ++ '/' :: cmd) = true
        · simp [hx, path_candidates, hne]
        · have := ih hrest hlrest k (by simp at hfuel ⊢; omega)
          simp only [hx, if_false, Bool.false_eq_true]
          rw [this]
          simp [path_candidates, hne, hx]

/-- Every string is its colon-delimited components joined by colons. -/
theorem path_components_exist (p : Str) :
    ∃ components : List Str, (∀ d ∈ components, ':' ∉ d) ∧
      p = List.intercalate [':'] components := by
  induction p with
  | nil => exact ⟨[], by simp, by simp [List.intercalate]⟩
  | cons c rest ih =>
    obtain ⟨comps, h1, h2⟩ := ih
    by_cases hc : c = ':'
    · subst hc
      cases comps with
      | nil =>
        refine ⟨[[], []], by simp, ?_⟩
        simp [List.intercalate] at h2
        simp [List.intercalate, h2]
      | cons y r =>
        refine ⟨[] :: y :: r, ?_, ?_⟩
        · intro d hd
          rcases List.mem_cons.1 hd with rfl | hd
          · simp
          · exact h1 d hd
        · rw [intercalate_cons_cons, ← h2]
          simp
    · cases comps with
      | nil =>
        refine ⟨[[c]], ?_, ?_⟩
        · intro d hd
          simp at hd
          subst hd
          simpa using fun e => hc e.symm
        · simp [List.intercalate] at h2
          simp [List.intercalate, h2]
      | cons y r =>
        refine ⟨(c :: y) :: r, ?_, ?_⟩
        · intro d hd
          rcases List.mem_cons.1 hd with rfl | hd
          · have := h1 y (by simp)
            simp only [List.mem_cons, not_or]
            exact ⟨fun e => hc e.symm, this⟩
          · exact h1 d (by simp [hd])
        · cases r with
          | nil =>
            simp [List.intercalate] at h2 ⊢
            exact h2
          | cons z r2 =>
            rw [intercalate_cons_cons] at h2 ⊢
            rw [h2]
            simp

/-- C13. For every command name, search path and execute-permission oracle:
an empty name resolves to nothing; a name with a `/` resolves to itself when
it is executable and to nothing otherwise, whatever the search path; a name
without `/` resolves to nothing when `PATH` is unset or empty, and otherwise,
the path being its colon-delimited components joined by colons and every
`d/name` being shorter than `MAX_LINE`, to `d/name` for the first non-empty
component `d`, from left to right, for which `d/name` is executable, or to
nothing when there is none. -/
theorem find_executable_spec (os : OS) (st : Shell) (cmd : Str) :
    (cmd = [] → find_executable os st cmd = none) ∧
    ('/' ∈ cmd → find_executable os st cmd = if os.access_x cmd then some cmd else none) ∧
    ('/' ∈ cmd → ∀ st2 : Shell, find_executable os st2 cmd = find_executable os st cmd) ∧
    ('/' ∉ cmd → st.PATH = none → find_executable os st cmd = none) ∧
    ('/' ∉ cmd → st.PATH = some [] → find_executable os st cmd = none) ∧
    (∃ components : List Str, (∀ d ∈ components, ':' ∉ d) ∧
      st.PATH.getD [] = List.intercalate [':'] components) ∧
    (cmd ≠ [] → '/' ∉ cmd → ∀ components : List Str,
      st.PATH = some (List.intercalate [':'] components) →
      (∀ d ∈ components, ':' ∉ d) →
      (∀ d ∈ components, d ≠ [] → (d ++ '/' :: cmd).length < os.MAX_LINE) →
      find_executable os st cmd = (path_candidates cmd components).find? os.access_x) := by
  refine ⟨?_, ?_, ?_, ?_, ?_, path_components_exist _, ?_⟩
  · intro h
    simp [find_executable, h]
  · intro h
    have hne : cmd.length ≠ 0 := by
      intro e
      rw [List.length_eq_zero] at e
      rw [e] at h
      simp at h
    simp [find_executable, hne, h]
  · intro h st2
    have hne : cmd.length ≠ 0 := by
      intro e
      rw [List.length_eq_zero] at e
      rw [e] at h
      simp at h
    simp [find_executable, hne, h]
  · intro h hp
    simp [find_executable, h, hp]
  · intro h hp
    simp [find_executable, h, hp]
  · intro hne hs components hp hcolon hlen
    have hl : cmd.length ≠ 0 := by
      intro e
      exact hne (List.length_eq_zero.1 e)
    unfold find_executable
    simp only [hl, if_false, hs, hp]
    by_cases hz : (List.intercalate [':'] components).length = 0
    · simp only [hz, if_true]
      have hnil : List.intercalate [':'] components = [] := List.length_eq_zero.1 hz
      have := find_loop_components os cmd components hcolon hlen 1 (by omega)
      rw [hnil, find_loop_nil] at this
      simp only [Option.some.injEq] at this
      exact this
    · simp only [hz, if_false]
      rw [find_loop_components os cmd components hcolon hlen _ (by omega)]
      rfl

/-- C13 on the name `ls` and the path `/usr/bin::/bin`, whose second
component is empty: `/usr/bin/ls` is not executable, `/bin/ls` is. -/
theorem find_executable_spec_witness :
    "ls".toList ≠ [] ∧ '/' ∉ "ls".toList ∧
    ({ main_init none with PATH := some "/usr/bin::/bin".toList } : Shell).PATH =
      some (List.intercalate [':'] ["/usr/bin".toList, [], "/bin".toList]) ∧
    path_candidates "ls".toList ["/usr/bin".toList, [], "/bin".toList] =
      ["/usr/bin/ls".toList, "/bin/ls".toList] ∧
    find_executable (demo_os parent_fork all_exit_zero)
      { main_init none with PATH := some "/usr/bin::/bin".toList } "ls".toList =
      some "/bin/ls".toList :=
  ⟨by decide, by decide, by decide, by decide,
   ((find_executable_spec (demo_os parent_fork all_exit_zero)
      { main_init none with PATH := some "/usr/bin::/bin".toList } "ls".toList).2.2.2.2.2.2
        (by decide) (by decide) ["/usr/bin".toList, [], "/bin".toList] (by decide)
        (by decide) (by decide)).trans (by decide)⟩

/-! ## Every successful tokenization is a sequence of lexemes (C14, C16, C20) -/

theorem strchr_cut_some (c : Char) (s tok rest : Str) (h : strchr_cut c s = some (tok, rest)) :
    s = tok ++ c :: rest ∧ c ∉ tok := by
  induction s generalizing tok with
  | nil => simp [strchr_cut] at h
  | cons x xs ih =>
    unfold strchr_cut at h
    split_ifs at h with hx
    · simp only [Option.some.injEq, Prod.mk.injEq] at h
      obtain ⟨rfl, rfl⟩ := h
      exact ⟨by simp [hx], by simp⟩
    · cases hc : strchr_cut c xs with
      | none => simp [hc] at h
      | some pr =>
        obtain ⟨t, r⟩ := pr
        simp only [hc, Option.some.injEq, Prod.mk.injEq] at h
        obtain ⟨rfl, rfl⟩ := h
        obtain ⟨h1, h2⟩ := ih t hc
        refine ⟨by rw [h1]; simp, ?_⟩
        simp only [List.mem_cons, not_or]
        exact ⟨fun e => hx e.symm, h2⟩

theorem strchr_cut_eq_none (c : Char) (s : Str) (h : strchr_cut c s = none) : c ∉ s := by
  induction s with
  | nil => simp
  | cons x xs ih =>
    unfold strchr_cut at h
    split_ifs at h with hx
    cases hc : strchr_cut c xs with
    | none =>
      simp only [List.mem_cons, not_or]
      exact ⟨fun e => hx e.symm, ih hc⟩
    | some pr => simp [hc] at h

theorem skip_spaces_decomp (s : Str) :
    ∃ n, s = List.replicate n SPACE ++ skip_spaces s := by
  induction s with
  | nil => exact ⟨0, rfl⟩
  | cons c rest ih =>
    by_cases hc : c = SPACE
    · obtain ⟨n, hn⟩ := ih
      refine ⟨n + 1, ?_⟩
      simp only [skip_spaces, hc, if_true, List.replicate_succ, List.cons_append]
      rw [← hn]
    · exact ⟨0, by simp [skip_spaces, hc]⟩

theorem skip_spaces_idem (s : Str) : skip_spaces (skip_spaces s) = skip_spaces s := by
  induction s with
  | nil => rfl
  | cons c rest ih =>
    by_cases hc : c = SPACE
    · simp only [skip_spaces, hc, if_true]
      exact ih
    · simp [skip_spaces, hc]

/-- When the loop ends normally, what it has read is a sequence of
well-formed lexemes, followed by a last piece without space (which the
tokenizer drops), and what it returns is the tokens of these lexemes, stored
under the cap. -/
theorem parse_loop_decompose (M : Nat) (fuel : Nat) (p : Str) (argv res : List Str)
    (hp : skip_spaces p = p) (h : parse_loop M fuel p argv = LoopResult.done res) :
    ∃ (ls : List Lexeme) (tail : Str), (∀ l ∈ ls, l.wf) ∧ p = lexemes_text ls ++ tail ∧
      SPACE ∉ tail ∧ res = store_all M argv (ls.map Lexeme.token) := by
  induction fuel generalizing p argv with
  | zero => simp [parse_loop] at h
  | succ n ih =>
    cases p with
    | nil =>
      rw [parse_loop_nil] at h
      simp only [LoopResult.done.injEq] at h
      exact ⟨[], [], by simp, by simp [lexemes_text], by simp, by simp [store_all, h]⟩
    | cons c p1 =>
      have hcs : c ≠ SPACE := by
        intro e
        have hlen := skip_spaces_length p1
        rw [e] at hp
        simp only [skip_spaces, if_true] at hp
        have := congrArg List.length hp
        simp at this
        omega
      by_cases hc : c = SQUOTE
      · subst hc
        rw [parse_loop_quote] at h
        cases hq : strchr_cut SQUOTE p1 with
        | none => simp [hq] at h
        | some pr =>
          obtain ⟨tok, rest⟩ := pr
          simp only [hq] at h
          obtain ⟨hp1, hnq⟩ := strchr_cut_some _ _ _ _ hq
          obtain ⟨gap, hgap⟩ := skip_spaces_decomp rest
          obtain ⟨ls, tail, hwf, htext, htail, hres⟩ :=
            ih (skip_spaces rest) _ (skip_spaces_idem rest) h
          refine ⟨Lexeme.quoted tok gap :: ls, tail, ?_, ?_, htail, ?_⟩
          · intro l hl
            rcases List.mem_cons.1 hl with rfl | hl
            · exact hnq
            · exact hwf l hl
          · rw [hp1, hgap, htext]
            simp [lexemes_text, Lexeme.text, skip_spaces_replicate, skip_spaces_idem]
          · rw [hres, List.map_cons, store_all_cons]
            rfl
      · rw [parse_loop_plain _ _ _ _ _ hc] at h
        cases hq : strchr_cut SPACE (c :: p1) with
        | none =>
          simp only [hq, LoopResult.done.injEq] at h
          exact ⟨[], c :: p1, by simp, by simp [lexemes_text], strchr_cut_eq_none _ _ hq,
            by simp [store_all, h]⟩
        | some pr =>
          obtain ⟨tok, rest⟩ := pr
          simp only [hq] at h
          obtain ⟨hp1, hnq⟩ := strchr_cut_some _ _ _ _ hq
          obtain ⟨gap, hgap⟩ := skip_spaces_decomp rest
          obtain ⟨ls, tail, hwf, htext, htail, hres⟩ :=
            ih (skip_spaces rest) _ (skip_spaces_idem rest) h
          have htok : tok ≠ [] ∧ tok.head? ≠ some SQUOTE := by
            cases tok with
            | nil =>
              simp only [List.nil_append, List.cons.injEq] at hp1
              exact absurd hp1.1 hcs
            | cons x xs =>
              simp only [List.cons_append, List.cons.injEq] at hp1
              rw [← hp1.1]
              exact ⟨by simp, by simpa using hc⟩
          refine ⟨Lexeme.word tok gap :: ls, tail, ?_, ?_, htail, ?_⟩
          · intro l hl
            rcases List.mem_cons.1 hl with rfl | hl
            · exact ⟨htok.1, htok.2, hnq⟩
            · exact hwf l hl
          · rw [hp1, hgap, htext]
            simp [lexemes_text, Lexeme.text, skip_spaces_replicate, skip_spaces_idem,
              List.replicate_succ]
          · rw [hres, List.map_cons, store_all_cons]
            rfl

theorem store_all_take_aux (M : Nat) (argv toks : List Str) (h : argv.length ≤ M - 1) :
    store_all M argv toks = argv ++ toks.take (M - 1 - argv.length) := by
  induction toks generalizing argv with
  | nil => simp [store_all]
  | cons t ts ih =>
    rw [store_all_cons]
    by_cases hlt : argv.length < M - 1
    · have h2 : store_all M argv [t] = argv ++ [t] := by simp [store_all, hlt]
      rw [h2, ih _ (by simp; omega)]
      have : M - 1 - argv.length = (M - 1 - (argv ++ [t]).length) + 1 := by simp; omega
      rw [this, List.take_succ_cons]
      simp
    · have h2 : store_all M argv [t] = argv := by simp [store_all, hlt]
      rw [h2, ih _ h]
      have : M - 1 - argv.length = 0 := by omega
      simp [this]

/-- Storing under the cap keeps the first `MAX_ARGS - 1` tokens. -/
theorem store_all_take (M : Nat) (toks : List Str) :
    store_all M [] toks = toks.take (M - 1) := by
  simpa using store_all_take_aux M [] toks (by simp)

theorem parse_buf_ends_with_space (s : Str) : ∃ b, parse_buf s = b ++ [SPACE] := by
  unfold parse_buf
  split_ifs
  · exact ⟨_, rfl⟩
  · exact ⟨_, rfl⟩

theorem tail_nil_of_ends_with_space (a tail b : Str) (h : a ++ tail = b ++ [SPACE])
    (hs : SPACE ∉ tail) : tail = [] := by
  by_contra hne
  have h1 : (a ++ tail).getLast? = tail.getLast? := by
    rw [List.getLast?_append]
    cases htl : tail.getLast? with
    | none => simp [List.getLast?_eq_none_iff] at htl; exact absurd htl hne
    | some x => simp
  have h2 : (b ++ [SPACE]).getLast? = some SPACE := by simp
  rw [h] at h1
  rw [h2] at h1
  exact hs (List.mem_of_getLast?_eq_some h1.symm)

/-- Whether the tokenizer reported nothing on the segment. -/
theorem parseline_silent_iff (M : Nat) (st : Shell) (seg : Str) :
    (parseline_no_subst M st seg).1.trace = st.trace ↔
      ∃ res, parse_loop M ((parse_buf seg).length + 1) (skip_spaces (parse_buf seg)) [] =
        LoopResult.done res := by
  have hfuel := parse_loop_fuel M ((parse_buf seg).length + 1) (skip_spaces (parse_buf seg)) []
    (by have := skip_spaces_length (parse_buf seg); omega)
  cases hl : parse_loop M ((parse_buf seg).length + 1) (skip_spaces (parse_buf seg)) [] with
  | done res => simp [parseline_no_subst, hl]
  | missing_quote => simp [parseline_no_subst, hl, wsh_warn]
  | out_of_fuel => exact absurd hl hfuel

/-- A tokenization that reports nothing has read the buffer as leading spaces
followed by well-formed lexemes, and returns the first `MAX_ARGS - 1` of
their tokens. -/
theorem parseline_decompose (M : Nat) (st : Shell) (seg : Str)
    (hok : (parseline_no_subst M st seg).1.trace = st.trace) :
    ∃ (lead : Nat) (ls : List Lexeme), (∀ l ∈ ls, l.wf) ∧
      parse_buf seg = List.replicate lead SPACE ++ lexemes_text ls ∧
      parseline_no_subst M st seg =
        (st, { argc := ((ls.map Lexeme.token).take (M - 1)).length,
               argv := ((ls.map Lexeme.token).take (M - 1)).map some ++ [none] }) := by
  obtain ⟨res, hl⟩ := (parseline_silent_iff M st seg).1 hok
  obtain ⟨ls, tail, hwf, htext, htail, hres⟩ :=
    parse_loop_decompose M _ _ _ _ (skip_spaces_idem (parse_buf seg)) hl
  obtain ⟨lead, hlead⟩ := skip_spaces_decomp (parse_buf seg)
  obtain ⟨b, hb⟩ := parse_buf_ends_with_space seg
  have hbuf : parse_buf seg = (List.replicate lead SPACE ++ lexemes_text ls) ++ tail := by
    rw [hlead, htext]
    simp [skip_spaces_replicate, skip_spaces_idem]
  have htl : tail = [] := tail_nil_of_ends_with_space _ tail b (by rw [← hbuf, hb]) htail
  subst htl
  rw [store_all_take] at hres
  refine ⟨lead, ls, hwf, by simpa using hbuf, ?_⟩
  simp only [parseline_no_subst, hl, hres]

/-- C14 as stated fails on a quote in the middle of a word: `a'b c'd`
tokenizes, without any error, to the two arguments `a'b` and `c'd`; both
contain a single quote and the text between the two quotes is split at its
space. -/
theorem quote_inside_word_counterexample :
    (parseline_no_subst 128 (main_init none)
        ("a".toList ++ SQUOTE :: "b c".toList ++ SQUOTE :: "d".toList)).1.trace =
      (main_init none).trace ∧
    (parseline_no_subst 128 (main_init none)
        ("a".toList ++ SQUOTE :: "b c".toList ++ SQUOTE :: "d".toList)).2.args =
      ["a".toList ++ SQUOTE :: "b".toList, "c".toList ++ SQUOTE :: "d".toList] ∧
    SQUOTE ∈ "a".toList ++ SQUOTE :: "b".toList := by
  decide

/-- C14, amended. For every segment on which `parseline_no_subst` reports
nothing, the buffer is leading spaces followed by lexemes of two kinds, and
the arguments are the tokens of the first `MAX_ARGS - 1` lexemes: a single
quote where a token starts opens a span that runs to the next single quote
and becomes one argument, quotes stripped, spaces kept, with no single quote
inside; any other token starts with another character, runs to the next
space, and keeps the single quotes it contains as ordinary characters. -/
theorem parseline_quotes (M : Nat) (st : Shell) (seg : Str)
    (hok : (parseline_no_subst M st seg).1.trace = st.trace) :
    ∃ (lead : Nat) (ls : List Lexeme),
      (∀ l ∈ ls, match l with
        | Lexeme.quoted q _ => SQUOTE ∉ q
        | Lexeme.word w _ => w ≠ [] ∧ w.head? ≠ some SQUOTE ∧ SPACE ∉ w) ∧
      parse_buf seg = List.replicate lead SPACE ++ lexemes_text ls ∧
      (parseline_no_subst M st seg).2.args = (ls.map Lexeme.token).take (M - 1) := by
  obtain ⟨lead, ls, hwf, hbuf, hres⟩ := parseline_decompose M st seg hok
  refine ⟨lead, ls, ?_, hbuf, ?_⟩
  · intro l hl
    have := hwf l hl
    cases l <;> exact this
  · rw [hres]
    exact parsed_args_shape _

/-- C14, amended, on `a'b 'c d'`: the first quote is inside a word and stays,
the second starts a token and opens a span. -/
theorem parseline_quotes_witness :
    (parseline_no_subst 128 (main_init none)
        ("a".toList ++ SQUOTE :: "b ".toList ++ SQUOTE :: "c d".toList ++ [SQUOTE])).1.trace =
      (main_init none).trace ∧
    (parseline_no_subst 128 (main_init none)
        ("a".toList ++ SQUOTE :: "b ".toList ++ SQUOTE :: "c d".toList ++ [SQUOTE])).2.args =
      ["a".toList ++ SQUOTE :: "b".toList, "c d".toList] ∧
    ∃ (lead : Nat) (ls : List Lexeme),
      (∀ l ∈ ls, match l with
        | Lexeme.quoted q _ => SQUOTE ∉ q
        | Lexeme.word w _ => w ≠ [] ∧ w.head? ≠ some SQUOTE ∧ SPACE ∉ w) ∧
      parse_buf ("a".toList ++ SQUOTE :: "b ".toList ++ SQUOTE :: "c d".toList ++ [SQUOTE]) =
        List.replicate lead SPACE ++ lexemes_text ls ∧
      (parseline_no_subst 128 (main_init none)
        ("a".toList ++ SQUOTE :: "b ".toList ++ SQUOTE :: "c d".toList ++ [SQUOTE])).2.args =
        (ls.map Lexeme.token).take (128 - 1) :=
  ⟨by decide, by decide,
   parseline_quotes 128 (main_init none)
     ("a".toList ++ SQUOTE :: "b ".toList ++ SQUOTE :: "c d".toList ++ [SQUOTE]) (by decide)⟩

/-! ## The cap on the number of arguments (C16) -/

/-- Whatever the segment, at most `MAX_ARGS - 1` arguments are returned. -/
theorem parseline_args_le (M : Nat) (st : Shell) (seg : Str) :
    (parseline_no_subst M st seg).2.args.length ≤ M - 1 ∧
    (parseline_no_subst M st seg).2.argc ≤ M - 1 := by
  by_cases hok : (parseline_no_subst M st seg).1.trace = st.trace
  · obtain ⟨lead, ls, -, -, hres⟩ := parseline_decompose M st seg hok
    rw [hres, parsed_args_shape]
    simp only [List.length_take]
    exact ⟨Nat.min_le_left _ _, Nat.min_le_left _ _⟩
  · rcases parseline_cases M st seg with ⟨args, h⟩ | h
    · rw [h] at hok
      exact absurd rfl hok
    · rw [h]
      simp [Parsed.args]

set_option maxRecDepth 100000 in
/-- C16 as stated fails when an argument past the cap starts with a quote
that is never closed: with `MAX_ARGS = 3` the segment `a b 'c` holds the two
arguments `a` and `b` and a third, dropped one; the call reports
`MISSING_CLOSING_QUOTE`, sets `rc = EXIT_FAILURE` and returns no argument,
where `a b c` returns `a` and `b` silently. The same happens with
`MAX_ARGS = 128` when 127 words come before the open quote. -/
theorem dropped_argument_counterexample :
    (parseline_no_subst 3 (main_init none) "a b c".toList).2.args = ["a".toList, "b".toList] ∧
    (parseline_no_subst 3 (main_init none) "a b c".toList).1.trace = [] ∧
    (parseline_no_subst 3 (main_init none) ("a b ".toList ++ SQUOTE :: "c".toList)).2.args
      = [] ∧
    (parseline_no_subst 3 (main_init none) ("a b ".toList ++ SQUOTE :: "c".toList)).1.trace
      = [Event.warn Msg.MISSING_CLOSING_QUOTE] ∧
    (parseline_no_subst 3 (main_init none) ("a b ".toList ++ SQUOTE :: "c".toList)).1.rc
      = EXIT_FAILURE ∧
    (parseline_no_subst 128 (main_init none)
        ((List.replicate 127 "a ".toList).flatten ++ SQUOTE :: "c".toList)).2.args = [] ∧
    (parseline_no_subst 128 (main_init none)
        ((List.replicate 127 "a ".toList).flatten ++ SQUOTE :: "c".toList)).1.rc
      = EXIT_FAILURE := by
  decide

/-- C16, amended. For every segment, `parseline_no_subst` returns at most
`MAX_ARGS - 1` arguments; when the buffer is leading spaces followed by
complete tokens (no quote left open, also past the cap), the result is
exactly the tokens of the first `MAX_ARGS - 1` of them in order, the others
are dropped, nothing is reported and `rc` and the rest of the state are
unchanged. -/
theorem parseline_cap (M : Nat) (st : Shell) (seg : Str) :
    (parseline_no_subst M st seg).2.args.length ≤ M - 1 ∧
    (parseline_no_subst M st seg).2.argc ≤ M - 1 ∧
    (∀ (lead : Nat) (ls : List Lexeme), (∀ l ∈ ls, l.wf) →
      parse_buf seg = List.replicate lead SPACE ++ lexemes_text ls →
      (parseline_no_subst M st seg).1 = st ∧
      (parseline_no_subst M st seg).2.args = (ls.map Lexeme.token).take (M - 1) ∧
      (parseline_no_subst M st seg).2.argc = min (M - 1) ls.length) := by
  refine ⟨(parseline_args_le M st seg).1, (parseline_args_le M st seg).2, ?_⟩
  intro lead ls hwf hbuf
  obtain ⟨fuel, hfuel, hloop⟩ := parse_loop_lexemes_any_fuel M ls hwf [] rfl lead 0
  simp only [List.append_nil, Nat.add_zero] at hloop
  obtain ⟨k, rfl⟩ : ∃ k, fuel = k + 1 := ⟨fuel - 1, by omega⟩
  rw [parse_loop_nil, store_all_take] at hloop
  have key : parseline_no_subst M st seg =
      (st, { argc := ((ls.map Lexeme.token).take (M - 1)).length,
             argv := ((ls.map Lexeme.token).take (M - 1)).map some ++ [none] }) := by
    simp only [parseline_no_subst, hbuf, hloop]
  rw [key]
  refine ⟨rfl, parsed_args_shape _, ?_⟩
  simp

/-- C16, amended, with `MAX_ARGS = 3` on `a b c d`: the arguments are `a`
and `b`, and `c` and `d` are dropped silently. -/
theorem parseline_cap_witness :
    (∀ l ∈ [Lexeme.word "a".toList 0, Lexeme.word "b".toList 0, Lexeme.word "c".toList 0,
        Lexeme.word "d".toList 0], l.wf) ∧
    parse_buf "a b c d".toList = List.replicate 0 SPACE ++
      lexemes_text [Lexeme.word "a".toList 0, Lexeme.word "b".toList 0,
        Lexeme.word "c".toList 0, Lexeme.word "d".toList 0] ∧
    (parseline_no_subst 3 (main_init none) "a b c d".toList).1 = main_init none ∧
    (parseline_no_subst 3 (main_init none) "a b c d".toList).2.args =
      ["a".toList, "b".toList] :=
  ⟨by decide, by decide,
   ((parseline_cap 3 (main_init none) "a b c d".toList).2.2 0
      [Lexeme.word "a".toList 0, Lexeme.word "b".toList 0, Lexeme.word "c".toList 0,
        Lexeme.word "d".toList 0] (by decide) (by decide)).1,
   ((parseline_cap 3 (main_init none) "a b c d".toList).2.2 0
      [Lexeme.word "a".toList 0, Lexeme.word "b".toList 0, Lexeme.word "c".toList 0,
        Lexeme.word "d".toList 0] (by decide) (by decide)).2.1.trans (by decide)⟩

/-! ## Spaces around a segment (C15) -/

theorem skip_spaces_all (n : Nat) : skip_spaces (List.replicate n SPACE) = [] := by
  have := skip_spaces_replicate n []
  simpa [skip_spaces] using this

theorem skip_spaces_append_nil (t x : Str) (h : skip_spaces t = []) :
    skip_spaces (t ++ x) = skip_spaces x := by
  induction t with
  | nil => rfl
  | cons c rest ih =>
    by_cases hc : c = SPACE
    · simp only [skip_spaces, hc, if_true] at h
      simp only [List.cons_append, skip_spaces, hc, if_true]
      exact ih h
    · simp [skip_spaces, hc] at h

theorem skip_spaces_append_cons (t x : Str) (c : Char) (t1 : Str)
    (h : skip_spaces t = c :: t1) : skip_spaces (t ++ x) = c :: (t1 ++ x) := by
  induction t with
  | nil => simp [skip_spaces] at h
  | cons d rest ih =>
    by_cases hd : d = SPACE
    · simp only [skip_spaces, hd, if_true] at h
      simp only [List.cons_append, skip_spaces, hd, if_true]
      exact ih h
    · simp only [skip_spaces, hd, if_false, List.cons.injEq] at h
      obtain ⟨rfl, rfl⟩ := h
      simp [skip_spaces, hd]

theorem strchr_cut_append_some (c : Char) (a b tok rest : Str)
    (h : strchr_cut c a = some (tok, rest)) : strchr_cut c (a ++ b) = some (tok, rest ++ b) := by
  obtain ⟨h1, h2⟩ := strchr_cut_some c a tok rest h
  rw [h1]
  have := strchr_cut_append c tok (rest ++ b) h2
  simpa using this

theorem squote_not_mem_spaces (n : Nat) : SQUOTE ∉ List.replicate n SPACE := by
  intro h
  exact squote_ne_space (List.eq_of_mem_replicate h)

/-- With enough fuel, the number of fuel units does not matter. -/
theorem parse_loop_fuel_indep (M : Nat) (f1 f2 : Nat) (p : Str) (argv : List Str)
    (h1 : p.length < f1) (h2 : p.length < f2) :
    parse_loop M f1 p argv = parse_loop M f2 p argv := by
  induction f1 generalizing f2 p argv with
  | zero => omega
  | succ n ih =>
    obtain ⟨m, rfl⟩ : ∃ m, f2 = m + 1 := ⟨f2 - 1, by omega⟩
    cases p with
    | nil => simp [parse_loop_nil]
    | cons c p1 =>
      by_cases hc : c = SQUOTE
      · subst hc
        rw [parse_loop_quote, parse_loop_quote]
        cases hq : strchr_cut SQUOTE p1 with
        | none => rfl
        | some pr =>
          obtain ⟨t, r⟩ := pr
          simp only
          have e1 := strchr_cut_length _ _ _ _ hq
          have e2 := skip_spaces_length r
          simp only [List.length_cons] at h1 h2
          exact ih m _ _ (by omega) (by omega)
      · rw [parse_loop_plain _ _ _ _ _ hc, parse_loop_plain _ _ _ _ _ hc]
        cases hq : strchr_cut SPACE (c :: p1) with
        | none => rfl
        | some pr =>
          obtain ⟨t, r⟩ := pr
          simp only
          have e1 := strchr_cut_length _ _ _ _ hq
          have e2 := skip_spaces_length r
          simp only [List.length_cons] at h1 h2 e1
          exact ih m _ _ (by omega) (by omega)

/-- The number of spaces at the end of the buffer, as long as there is one,
does not change what the loop returns. -/
theorem parse_loop_trailing (M : Nat) (n : Nat) (t : Str) (argv : List Str) (k j : Nat)
    (hk : (t ++ List.replicate (k + 1) SPACE).length < n)
    (hj : (t ++ List.replicate (j + 1) SPACE).length < n) :
    parse_loop M n (skip_spaces (t ++ List.replicate (k + 1) SPACE)) argv =
      parse_loop M n (skip_spaces (t ++ List.replicate (j + 1) SPACE)) argv := by
  induction n generalizing t argv with
  | zero => omega
  | succ n ih =>
    cases hs : skip_spaces t with
    | nil =>
      rw [skip_spaces_append_nil _ _ hs, skip_spaces_append_nil _ _ hs, skip_spaces_all,
        skip_spaces_all]
    | cons c t1 =>
      have hlen : (c :: t1).length ≤ t.length := by
        rw [← hs]; exact skip_spaces_length t
      simp only [List.length_append, List.length_replicate, List.length_cons] at hk hj hlen
      rw [skip_spaces_append_cons _ _ _ _ hs, skip_spaces_append_cons _ _ _ _ hs]
      by_cases hc : c = SQUOTE
      · subst hc
        rw [parse_loop_quote, parse_loop_quote]
        cases hq : strchr_cut SQUOTE t1 with
        | none =>
          have hnq := strchr_cut_eq_none _ _ hq
          rw [strchr_cut_none, strchr_cut_none]
          · intro hm
            rcases List.mem_append.1 hm with h | h
            · exact hnq h
            · exact squote_not_mem_spaces _ h
          · intro hm
            rcases List.mem_append.1 hm with h | h
            · exact hnq h
            · exact squote_not_mem_spaces _ h
        | some pr =>
          obtain ⟨tok, rest⟩ := pr
          rw [strchr_cut_append_some _ _ _ _ _ hq, strchr_cut_append_some _ _ _ _ _ hq]
          simp only
          have e1 := strchr_cut_length _ _ _ _ hq
          exact ih rest _ (by simp; omega) (by simp; omega)
      · rw [parse_loop_plain _ _ _ _ _ hc, parse_loop_plain _ _ _ _ _ hc]
        cases hq : strchr_cut SPACE (c :: t1) with
        | none =>
          have hnq := strchr_cut_eq_none _ _ hq
          have ek : c :: (t1 ++ List.replicate (k + 1) SPACE) =
              (c :: t1) ++ SPACE :: List.replicate k SPACE := by
            simp [List.replicate_succ]
          have ej : c :: (t1 ++ List.replicate (j + 1) SPACE) =
              (c :: t1) ++ SPACE :: List.replicate j SPACE := by
            simp [List.replicate_succ]
          rw [ek, ej, strchr_cut_append _ _ _ hnq, strchr_cut_append _ _ _ hnq]
          simp only [skip_spaces_all]
        | some pr =>
          obtain ⟨tok, rest⟩ := pr
          have ek : c :: (t1 ++ List.replicate (k + 1) SPACE) =
              (c :: t1) ++ List.replicate (k + 1) SPACE := by simp
          have ej : c :: (t1 ++ List.replicate (j + 1) SPACE) =
              (c :: t1) ++ List.replicate (j + 1) SPACE := by simp
          rw [ek, ej, strchr_cut_append_some _ _ _ _ _ hq, strchr_cut_append_some _ _ _ _ _ hq]
          simp only
          have e1 := strchr_cut_length _ _ _ _ hq
          simp only [List.length_cons] at e1
          exact ih rest _ (by simp; omega) (by simp; omega)

theorem getLast_spaces (n : Nat) : (List.replicate n SPACE).getLast? ≠ some NEWLINE := by
  intro h
  have := List.eq_of_mem_replicate (List.mem_of_getLast?_eq_some h)
  exact absurd this (by decide)

theorem parse_buf_padded (s : Str) (n1 n2 : Nat) (hnl : s.getLast? ≠ some NEWLINE) :
    parse_buf (List.replicate n1 SPACE ++ s ++ List.replicate n2 SPACE) =
      List.replicate n1 SPACE ++ (s ++ List.replicate (n2 + 1) SPACE) := by
  have hlast : (List.replicate n1 SPACE ++ s ++ List.replicate n2 SPACE).getLast? ≠
      some NEWLINE := by
    rw [List.getLast?_append, List.getLast?_append]
    cases h2 : (List.replicate n2 SPACE).getLast? with
    | some x =>
      have := getLast_spaces n2
      rw [h2] at this
      simpa using this
    | none =>
      cases h1 : s.getLast? with
      | some y =>
        rw [h1] at hnl
        simpa using hnl
      | none => simpa using getLast_spaces n1
  rw [parse_buf_of_no_newline _ hlast, List.replicate_succ']
  simp

/-- C15 as stated fails for tabs, which the tokenizer does not treat as
separators: a tab before `a` becomes part of the argument. It also fails
when the segment ends in a newline, which is turned into a space only when it
is the very last character: `a` followed by a newline gives `a`, but with a
space added after the newline the argument keeps the newline. -/
theorem padding_counterexample :
    (parseline_no_subst 128 (main_init none) "a".toList).2.args = ["a".toList] ∧
    (parseline_no_subst 128 (main_init none) (Char.ofNat 9 :: "a".toList)).2.args =
      [Char.ofNat 9 :: "a".toList] ∧
    (parseline_no_subst 128 (main_init none) ("a".toList ++ [Char.ofNat 9])).2.args =
      ["a".toList ++ [Char.ofNat 9]] ∧
    (parseline_no_subst 128 (main_init none) ("a".toList ++ [NEWLINE])).2.args = ["a".toList] ∧
    (parseline_no_subst 128 (main_init none) ("a".toList ++ [NEWLINE] ++ [SPACE])).2.args =
      ["a".toList ++ [NEWLINE]] := by
  decide

/-- Two segments whose buffers differ only in the spaces before the first
token and in the number of spaces at the end tokenize alike. -/
theorem parseline_of_buf (M : Nat) (st : Shell) (a b t : Str) (n1 k j : Nat)
    (ha : parse_buf a = List.replicate n1 SPACE ++ (t ++ List.replicate (k + 1) SPACE))
    (hb : parse_buf b = t ++ List.replicate (j + 1) SPACE) :
    parseline_no_subst M st a = parseline_no_subst M st b := by
  have hloop : parse_loop M
      ((List.replicate n1 SPACE ++ (t ++ List.replicate (k + 1) SPACE)).length + 1)
      (skip_spaces (List.replicate n1 SPACE ++ (t ++ List.replicate (k + 1) SPACE))) [] =
      parse_loop M ((t ++ List.replicate (j + 1) SPACE).length + 1)
        (skip_spaces (t ++ List.replicate (j + 1) SPACE)) [] := by
    rw [skip_spaces_replicate]
    have e1 := parse_loop_trailing M
      ((List.replicate n1 SPACE ++ (t ++ List.replicate (k + 1) SPACE)).length + 1 + j) t [] k j
      (by simp; omega) (by simp; omega)
    have l1 := skip_spaces_length (t ++ List.replicate (k + 1) SPACE)
    have l2 := skip_spaces_length (t ++ List.replicate (j + 1) SPACE)
    rw [parse_loop_fuel_indep M _
      ((List.replicate n1 SPACE ++ (t ++ List.replicate (k + 1) SPACE)).length + 1 + j) _ []
      (by simp at l1 ⊢; omega) (by simp at l1 ⊢; omega), e1]
    exact parse_loop_fuel_indep M _ _ _ [] (by simp at l2 ⊢; omega) (by omega)
  simp only [parseline_no_subst, ha, hb, hloop]

/-- C15, amended. For every segment text `s` and every two runs of space
characters, the second one empty if `s` ends in a newline,
`parseline_no_subst` returns for the segment with the first run before it and
the second after it exactly what it returns for `s`: the same state, count
and argument vector. -/
theorem parseline_padding (M : Nat) (st : Shell) (s : Str) (n1 n2 : Nat)
    (hnl : n2 = 0 ∨ s.getLast? ≠ some NEWLINE) :
    parseline_no_subst M st (List.replicate n1 SPACE ++ s ++ List.replicate n2 SPACE) =
      parseline_no_subst M st s := by
  by_cases hs : s.getLast? = some NEWLINE
  · have h0 : n2 = 0 := by
      rcases hnl with h | h
      · exact h
      · exact absurd hs h
    subst h0
    have hne : s ≠ [] := by
      intro e
      rw [e] at hs
      simp at hs
    have hlast : (List.replicate n1 SPACE ++ s ++ List.replicate 0 SPACE).getLast? =
        some NEWLINE := by
      simp [List.getLast?_append, hs]
    apply parseline_of_buf M st _ _ s.dropLast n1 0 0
    · simp only [parse_buf, hlast, if_true]
      simp [List.dropLast_append_of_ne_nil _ hne]
    · simp only [parse_buf, hs, if_true]
      rfl
  · apply parseline_of_buf M st _ _ s n1 n2 0
    · exact parse_buf_padded s n1 n2 hs
    · rw [parse_buf_of_no_newline _ hs]
      rfl

/-- C15, amended, on `ls -la` with two spaces before and three after. -/
theorem parseline_padding_witness :
    ((3 : Nat) = 0 ∨ "ls -la".toList.getLast? ≠ some NEWLINE) ∧
    (parseline_no_subst 128 (main_init none) "  ls -la   ".toList).2.args =
      ["ls".toList, "-la".toList] ∧
    parseline_no_subst 128 (main_init none)
        (List.replicate 2 SPACE ++ "ls -la".toList ++ List.replicate 3 SPACE) =
      parseline_no_subst 128 (main_init none) "ls -la".toList :=
  ⟨by decide, by decide,
   parseline_padding 128 (main_init none) "ls -la".toList 2 3 (by decide)⟩

/-! ## Pipes are cut before quotes are read (C20) -/

theorem strtok_r_token_no_delim (d : Char) (s tok rest : Str)
    (h : strtok_r d s = some (tok, rest)) : d ∉ tok := by
  unfold strtok_r at h
  simp only at h
  split_ifs at h
  simp only [Option.some.injEq, Prod.mk.injEq] at h
  intro hm
  rw [← h.1] at hm
  have := List.mem_takeWhile_imp hm
  simp at this

/-- No segment that `execute_line` works on holds a `|`. -/
theorem split_pipe_no_pipe (n : Nat) (s seg : Str) (h : seg ∈ split_pipe n s) : '|' ∉ seg := by
  induction n generalizing s with
  | zero => simp [split_pipe] at h
  | succ k ih =>
    unfold split_pipe at h
    cases ht : strtok_r '|' s with
    | none => simp [ht] at h
    | some pr =>
      obtain ⟨tok, rest⟩ := pr
      simp only [ht, List.mem_cons] at h
      rcases h with rfl | h
      · exact strtok_r_token_no_delim _ _ _ _ ht
      · exact ih rest h

theorem mem_parse_buf (s : Str) (ch : Char) (h : ch ∈ parse_buf s) : ch ∈ s ∨ ch = SPACE := by
  unfold parse_buf at h
  split_ifs at h
  · rcases List.mem_append.1 h with h1 | h1
    · exact Or.inl (List.mem_of_mem_dropLast h1)
    · exact Or.inr (by simpa using h1)
  · rcases List.mem_append.1 h with h1 | h1
    · exact Or.inl h1
    · exact Or.inr (by simpa using h1)

theorem mem_token_mem_text (l : Lexeme) (ch : Char) (h : ch ∈ l.token) : ch ∈ l.text := by
  cases l <;> simp [Lexeme.token, Lexeme.text] at h ⊢ <;> simp [h]

theorem mem_lexemes_text (ls : List Lexeme) (l : Lexeme) (hl : l ∈ ls) (ch : Char)
    (h : ch ∈ l.text) : ch ∈ lexemes_text ls := by
  induction ls with
  | nil => simp at hl
  | cons x rest ih =>
    rcases List.mem_cons.1 hl with rfl | hl
    · simp [lexemes_text, h]
    · simp [lexemes_text, ih hl]

/-- Every character of a returned argument is a character of the segment (or
a space). -/
theorem parseline_args_chars (M : Nat) (st : Shell) (seg arg : Str) (ch : Char)
    (harg : arg ∈ (parseline_no_subst M st seg).2.args) (hch : ch ∈ arg) :
    ch ∈ seg ∨ ch = SPACE := by
  by_cases hok : (parseline_no_subst M st seg).1.trace = st.trace
  · obtain ⟨lead, ls, -, hbuf, hres⟩ := parseline_decompose M st seg hok
    rw [hres, parsed_args_shape] at harg
    obtain ⟨l, hl, rfl⟩ := List.mem_map.1 (List.mem_of_mem_take harg)
    apply mem_parse_buf
    rw [hbuf]
    exact List.mem_append_right _ (mem_lexemes_text ls l hl ch (mem_token_mem_text l ch hch))
  · rcases parseline_cases M st seg with ⟨args, h⟩ | h
    · rw [h] at hok
      exact absurd rfl hok
    · rw [h] at harg
      simp [Parsed.args] at harg

/-- The line is cut at every `|` before any quote is read: no segment holds a
`|`, and no argument that the tokenizer returns for a segment holds one. -/
theorem pipe_never_in_argument (os : OS) (st : Shell) (line seg arg : Str)
    (hseg : seg ∈ split_pipe os.MAX_ARGS line)
    (harg : arg ∈ (parseline_no_subst os.MAX_ARGS st seg).2.args) :
    '|' ∉ seg ∧ '|' ∉ arg := by
  have h1 := split_pipe_no_pipe _ _ _ hseg
  refine ⟨h1, fun h => ?_⟩
  rcases parseline_args_chars _ _ _ _ _ harg h with h2 | h2
  · exact h1 h2
  · exact absurd h2 (by decide)

/-- C20 on the line `echo 'a|b'`. The line is cut at the `|` inside the
quotes into `echo 'a` and `b'`; the first segment is tokenized with a quote
that is never closed, the second to the argument `b'`; nothing is tokenized
to `a|b`. With no executable named `b'` the line ends in "command not found"
and `rc = EXIT_FAILURE`. With an executable of that name pre-validation
passes although the quote error was reported, both stages are forked and
waited for, and `rc` ends as the status of the last child, 0 here. -/
theorem pipe_inside_quotes_line :
    split_pipe 128 ("echo ".toList ++ SQUOTE :: "a|b".toList ++ [SQUOTE]) =
      ["echo ".toList ++ SQUOTE :: "a".toList, "b".toList ++ [SQUOTE]] ∧
    (parseline_no_subst 128 (main_init none) ("echo ".toList ++ SQUOTE :: "a".toList)).1.trace =
      [Event.warn Msg.MISSING_CLOSING_QUOTE] ∧
    (parseline_no_subst 128 (main_init none) ("b".toList ++ [SQUOTE])).2.args =
      ["b".toList ++ [SQUOTE]] ∧
    (execute_line (demo_os parent_fork all_exit_zero) (main_init none)
        ("echo ".toList ++ SQUOTE :: "a|b".toList ++ [SQUOTE])).1.trace =
      [Event.warn Msg.MISSING_CLOSING_QUOTE,
       Event.warn (Msg.CMD_NOT_FOUND ("b".toList ++ [SQUOTE]))] ∧
    (execute_line (demo_os parent_fork all_exit_zero) (main_init none)
        ("echo ".toList ++ SQUOTE :: "a|b".toList ++ [SQUOTE])).1.rc = EXIT_FAILURE ∧
    (execute_line (any_exec_os parent_fork all_exit_zero) (main_init none)
        ("echo ".toList ++ SQUOTE :: "a|b".toList ++ [SQUOTE])).1.trace =
      [Event.warn Msg.MISSING_CLOSING_QUOTE, Event.pipe 0 true,
       Event.fork 0 ("echo ".toList ++ SQUOTE :: "a".toList) 100,
       Event.fork 1 ("b".toList ++ [SQUOTE]) 101, Event.waitpid 100, Event.waitpid 101] ∧
    (execute_line (any_exec_os parent_fork all_exit_zero) (main_init none)
        ("echo ".toList ++ SQUOTE :: "a|b".toList ++ [SQUOTE])).2 = LineEnd.returned ∧
    (execute_line (any_exec_os parent_fork all_exit_zero) (main_init none)
        ("echo ".toList ++ SQUOTE :: "a|b".toList ++ [SQUOTE])).1.rc = EXIT_SUCCESS := by
  decide

/-! ## A failed `pipe` or `fork` in the middle of a pipeline (C12) -/

/-- C12 on `ls | wc | cat`. When the `pipe()` of stage 1 fails after stage 0
was started, `execute_line` returns at once: the child with pid 100 is never
waited for. When the `fork()` of stage 1 fails, the wait loop still runs over
all three cells of `pids`: it waits for the child 100, then calls
`waitpid(-1)`, which waits for any child, and `waitpid` on the cell of stage
2, which was never written. -/
theorem spawn_failure_reaping :
    (execute_line (pipe_fails_os 1 parent_fork all_exit_zero) (main_init none)
        "ls | wc | cat".toList).1.trace =
      [Event.pipe 0 true, Event.fork 0 "ls ".toList 100, Event.pipe 1 false,
       Event.perror "pipe".toList] ∧
    (execute_line (pipe_fails_os 1 parent_fork all_exit_zero) (main_init none)
        "ls | wc | cat".toList).2 = LineEnd.returned ∧
    (execute_line (pipe_fails_os 1 parent_fork all_exit_zero) (main_init none)
        "ls | wc | cat".toList).1.trace.countP is_waitpid = 0 ∧
    (execute_line (demo_os (fork_fails_at 1) all_exit_zero) (main_init none)
        "ls | wc | cat".toList).1.trace =
      [Event.pipe 0 true, Event.fork 0 "ls ".toList 100, Event.pipe 1 true,
       Event.fork 1 " wc ".toList (-1), Event.perror "fork".toList,
       Event.waitpid 100, Event.waitpid (-1),
       Event.waitpid ((demo_os (fork_fails_at 1) all_exit_zero).garbage_pid 2)] ∧
    (execute_line (demo_os (fork_fails_at 1) all_exit_zero) (main_init none)
        "ls | wc | cat".toList).2 = LineEnd.returned := by
  decide

/-! ## Usage errors and `rc` (C11) -/

/-- C11 on `alias ll = ls -la`, the alias form with one token after the
value: `handle_builtin` reports `INVALID_ALIAS_USE` through `wsh_warn`, which
sets `rc = EXIT_FAILURE`, then stores the alias and sets `rc = EXIT_SUCCESS`,
so `rc` is `EXIT_SUCCESS` when it returns. Every other usage error returns
right after `wsh_warn`, with `rc = EXIT_FAILURE`: `cd a b`, `path a b`,
`alias x`, `unalias`, `which`, `history a b`, `history 0`. -/
theorem alias_warning_rc :
    (handle_builtin (demo_os parent_fork all_exit_zero) (main_init none)
        ["alias".toList, "ll".toList, "=".toList, "ls".toList, "-la".toList]).1.trace =
      [Event.warn Msg.INVALID_ALIAS_USE] ∧
    (handle_builtin (demo_os parent_fork all_exit_zero) (main_init none)
        ["alias".toList, "ll".toList, "=".toList, "ls".toList, "-la".toList]).1.rc
      = EXIT_SUCCESS ∧
    (handle_builtin (demo_os parent_fork all_exit_zero) (main_init none)
        ["alias".toList, "ll".toList, "=".toList, "ls".toList, "-la".toList]).2
      = Handled.returned true ∧
    (execute_line (demo_os parent_fork all_exit_zero) (main_init none)
        "alias ll = ls -la".toList).1.rc = EXIT_SUCCESS ∧
    (handle_builtin (demo_os parent_fork all_exit_zero) (main_init none)
        ["cd".toList, "a".toList, "b".toList]).1 = wsh_warn Msg.INVALID_CD_USE (main_init none) ∧
    (handle_builtin (demo_os parent_fork all_exit_zero) (main_init none)
        ["path".toList, "a".toList, "b".toList]).1 =
      wsh_warn Msg.INVALID_PATH_USE (main_init none) ∧
    (handle_builtin (demo_os parent_fork all_exit_zero) (main_init none)
        ["alias".toList, "x".toList]).1 = wsh_warn Msg.INVALID_ALIAS_USE (main_init none) ∧
    (handle_builtin (demo_os parent_fork all_exit_zero) (main_init none)
        ["unalias".toList]).1 = wsh_warn Msg.INVALID_UNALIAS_USE (main_init none) ∧
    (handle_builtin (demo_os parent_fork all_exit_zero) (main_init none)
        ["which".toList]).1 = wsh_warn Msg.INVALID_WHICH_USE (main_init none) ∧
    (handle_builtin (demo_os parent_fork all_exit_zero) (main_init none)
        ["history".toList, "a".toList, "b".toList]).1 =
      wsh_warn Msg.INVALID_HISTORY_USE (main_init none) ∧
    (handle_builtin (demo_os parent_fork all_exit_zero) (main_init none)
        ["history".toList, "0".toList]).1 =
      wsh_warn Msg.HISTORY_INVALID_ARG (main_init none) ∧
    (wsh_warn Msg.INVALID_CD_USE (main_init none)).rc = EXIT_FAILURE := by
  refine ⟨by decide, by decide, by decide, by decide, rfl, rfl, rfl, rfl, rfl, rfl, ?_, rfl⟩
  rfl

end Wsh
